import Mathlib

/-!
# Verification of the logdog streaming log viewer core

Shallow embedding of the logdog repository's core components, translated
from the Go sources:

* `internal/logcat` (the copy embedded in `internal/buffer/ringbuffer.go`
  lines 1214-1769, which is the newest revision of the package): the
  threadtime line parser (`ParseLine`, `PriorityFromChar`), and the
  stream manager lifecycle (`Stop`, `monitorPID`).
* `internal/ui/model.go`: continuation detection (`isStackTraceLine`,
  `sameEntryMeta`, `shouldContinue`), filters (`parseFilters`,
  `matchesFilters`), the incremental render cache (`rebuildViewport`,
  `appendViewport`), and the selection engine (`extendSelectionTo`,
  `extendSelectionDown`, `extendSelectionUp`).

Strings are modelled as `List Char` (Go strings are byte slices read as
character sequences here; all inputs of interest are ASCII).  Go's
`unicode.IsSpace` is modelled on the ASCII whitespace characters, which
are the only whitespace characters the embedded code paths distinguish.
-/

namespace Logdog

/-- Whitespace as used by Go's `strings.Fields` / `strings.TrimSpace`
(modelled on the ASCII whitespace characters). -/
def isSpace (c : Char) : Bool :=
  c == ' ' || c == '\t' || c == '\n' || c == '\x0b' || c == '\x0c' || c == '\r'

/-- Go `strings.Fields`: split around runs of whitespace, producing the
maximal non-whitespace substrings in order.  Written as the single-pass
loop with the current-token accumulator (kept reversed). -/
def fieldsAux : List Char → List Char → List (List Char)
  | [], cur => if cur = [] then [] else [cur.reverse]
  | c :: s, cur =>
    if isSpace c then
      if cur = [] then fieldsAux s [] else cur.reverse :: fieldsAux s []
    else fieldsAux s (c :: cur)

/-- Go `strings.Fields`. -/
def fields (s : List Char) : List (List Char) :=
  fieldsAux s []

/-- Go `strings.Index s pat` (argument order swapped so the pattern comes
first, for structural recursion): index of the first occurrence of `pat`
in `s`, `none` standing for Go's `-1`. -/
def strIndex (pat : List Char) : List Char → Option Nat
  | [] => if pat.isPrefixOf ([] : List Char) then some 0 else none
  | c :: s' => if pat.isPrefixOf (c :: s') then some 0 else (strIndex pat s').map (· + 1)

/-- Right half of Go `strings.TrimSpace`: drop trailing whitespace. -/
def trimRightSpace (s : List Char) : List Char :=
  (s.reverse.dropWhile isSpace).reverse

/-- Go `strings.TrimSpace`: drop leading and trailing whitespace. -/
def trimSpace (s : List Char) : List Char :=
  trimRightSpace (s.dropWhile isSpace)

/-- The parser's final message adjustment: `if len(message) > 0 &&
message[0] == ' ' { message = message[1:] }` — strip at most one leading
separator space. -/
def stripOneLeadingSpace (s : List Char) : List Char :=
  match s with
  | c :: rest => if c == ' ' then rest else s
  | [] => s

/-- A run of `n` spaces. -/
def spaces (n : Nat) : List Char :=
  List.replicate n ' '

/-- Go `Priority` from the logcat package (ringbuffer.go:1229-1239). -/
inductive Priority where
  | Verbose
  | Debug
  | Info
  | Warn
  | Error
  | Fatal
  | Unknown
deriving DecidableEq

/-- The Go enum value of a priority (`Priority int`, `iota` order). -/
def Priority.toNat : Priority → Nat
  | .Verbose => 0
  | .Debug => 1
  | .Info => 2
  | .Warn => 3
  | .Error => 4
  | .Fatal => 5
  | .Unknown => 6

/-- Go `Entry` from the logcat package (ringbuffer.go:1242-1250). -/
structure Entry where
  Timestamp : List Char
  PID : List Char
  TID : List Char
  Priority : Priority
  Tag : List Char
  Message : List Char
  Raw : List Char
deriving DecidableEq

/-- Go `PriorityFromChar` (ringbuffer.go:1253-1270). -/
def PriorityFromChar (c : Char) : Priority :=
  if c == 'V' then .Verbose
  else if c == 'D' then .Debug
  else if c == 'I' then .Info
  else if c == 'W' then .Warn
  else if c == 'E' then .Error
  else if c == 'F' then .Fatal
  else .Unknown

/-- Tag/message extraction from `ParseLine` (ringbuffer.go:1347-1372).
`p4` is `parts[4]`.  Returns the `(tag, message)` pair; both default to
the empty string (the Go zero values) on the skipped branches. -/
def parseTagMessage (line : List Char) (p4 : List Char) : List Char × List Char :=
  match strIndex p4 line with
  | none => ([], [])
  | some tagMsgIdx =>
    if tagMsgIdx + p4.length < line.length then
      let remainder := trimSpace (line.drop (tagMsgIdx + p4.length))
      -- `strings.TrimLeft(remainder, " ")`: remove padding before the tag
      let trimmedRemainder := remainder.dropWhile (fun ch => ch == ' ')
      match strIndex [':'] trimmedRemainder with
      | some colonIdx =>
        let tag := trimSpace (trimmedRemainder.take colonIdx)
        let message :=
          if colonIdx + 1 < trimmedRemainder.length then
            stripOneLeadingSpace (trimmedRemainder.drop (colonIdx + 1))
          else []
        (tag, message)
      | none =>
        -- `entry.Message = strings.TrimLeft(remainder, " ")`, which is
        -- exactly the value already named `trimmedRemainder`
        ([], trimmedRemainder)
    else ([], [])

/-- Go `ParseLine` (ringbuffer.go:1314-1375).  `none` models the Go error
return for the empty line; every other input yields one entry.  In the
well-formed branch the guards `len(parts) >= 2` / `>= 4` / `>= 5` of the
source are always true because `len(parts) >= 6`, so the field
assignments are unconditional here; `parts[4]` is always a nonempty
token, the `.Verbose` fallback mirrors the Go zero value of
`entry.Priority` when the guarded assignment is skipped. -/
def ParseLine (line : List Char) : Option Entry :=
  if line = [] then none
  else
    let parts := fields line
    if parts.length < 6 then
      some { Timestamp := [], PID := [], TID := [], Priority := .Unknown,
             Tag := [], Message := line, Raw := line }
    else
      let p4 := parts.getD 4 []
      let priority :=
        match p4.head? with
        | some ch => PriorityFromChar ch
        | none => Priority.Verbose
      let tm := parseTagMessage line p4
      some { Timestamp := parts.getD 0 [] ++ ' ' :: parts.getD 1 [],
             PID := parts.getD 2 [], TID := parts.getD 3 [],
             Priority := priority, Tag := tm.1, Message := tm.2, Raw := line }

/-- Wrapper applying `ParseLine` to a `String`, for concrete examples. -/
def parseLineS (line : String) : Option Entry :=
  ParseLine line.data

/-! ## Continuation detection (model.go:441-486) -/

/-- Go `isStackTraceLine` (model.go:441-462). -/
def isStackTraceLine (message : List Char) : Bool :=
  let trimmed := message.dropWhile (fun c => c == ' ' || c == '\t')
  if trimmed = [] then false
  else if ("at ".data).isPrefixOf trimmed then true
  else if ("Caused by:".data).isPrefixOf trimmed then true
  else if ("Suppressed:".data).isPrefixOf trimmed then true
  else if ("...".data).isPrefixOf trimmed then true
  else if ("Stack trace:".data).isPrefixOf trimmed then true
  else false

/-- Go `sameEntryMeta` (model.go:464-473); `none` models the Go `nil`
pointer, for which the function returns `false`. -/
def sameEntryMeta (a b : Option Entry) : Bool :=
  match a, b with
  | some a, some b =>
    a.Timestamp == b.Timestamp && a.Tag == b.Tag && a.Priority == b.Priority &&
      a.PID == b.PID && a.TID == b.TID
  | _, _ => false

/-- Go `shouldContinue` (model.go:475-486).  `curr` is never `nil` at the
call sites, so it is a plain `Entry` here. -/
def shouldContinue (prev : Option Entry) (curr : Entry) (next : Option Entry) : Bool :=
  if !sameEntryMeta prev (some curr) then false
  else if isStackTraceLine curr.Message then true
  else if sameEntryMeta (some curr) next && (next.elim false fun n => isStackTraceLine n.Message) then true
  else false

/-! ## Filters (model.go:1379-1481)

The regular-expression engine is Go's `regexp` package, an external
library; a compiled regex is modelled by the source text handed to
`regexp.Compile` (`compiledSource`), and matching is a parameter
`rmatch : compiled source → subject → Bool` wherever it is needed.
`regexp.Compile` is modelled as always succeeding (patterns whose
compilation fails are silently dropped by the Go code; no claim depends
on that branch). -/

/-- Go `Filter` (model.go:177-181). -/
structure Filter where
  isTag : Bool
  pattern : List Char
  compiledSource : List Char
deriving DecidableEq

/-- Go `splitByUnescapedComma` (model.go:1410-1442), written with the
remaining input, the `escaped` flag and the current-part accumulator. -/
def splitAux : List Char → Bool → List Char → List (List Char)
  | [], _, cur => if cur = [] then [] else [cur.reverse]
  | ch :: rest, escaped, cur =>
    if escaped then splitAux rest false (ch :: cur)
    else if ch == '\\' then splitAux rest true (ch :: cur)
    else if ch == ',' then cur.reverse :: splitAux rest false []
    else splitAux rest false (ch :: cur)

/-- Go `splitByUnescapedComma` (model.go:1410-1442). -/
def splitByUnescapedComma (s : List Char) : List (List Char) :=
  splitAux s false []

/-- Go `strings.ReplaceAll(part, "\\,", ",")`: left-to-right
non-overlapping replacement of the two-character sequence. -/
def unescapeCommas : List Char → List Char
  | [] => []
  | [c] => [c]
  | a :: b :: rest =>
    if a == '\\' && b == ',' then ',' :: unescapeCommas rest
    else a :: unescapeCommas (b :: rest)

/-- Go `parseFilters` (model.go:1379-1408), returning the filter list (the
Go method assigns it to `m.filters`). -/
def parseFilters (filterStr : List Char) : List Filter :=
  if filterStr = [] then []
  else
    (splitByUnescapedComma filterStr).filterMap fun rawPart =>
      let part := trimSpace rawPart
      if part = [] then none
      else
        let tagged := ("tag:".data).isPrefixOf part
        let part := if tagged then part.drop ("tag:".data).length else part
        let part := unescapeCommas part
        some { isTag := tagged, pattern := part,
               compiledSource := "(?i)".data ++ part }

/-- Go `matchesFilters` (model.go:1444-1481); the entry is passed as its
tag and message, the only fields the method reads. -/
def matchesFilters (rmatch : List Char → List Char → Bool)
    (filters : List Filter) (tag msg : List Char) : Bool :=
  if filters = [] then true
  else
    let tagFilters := filters.filter (fun f => f.isTag)
    let messageFilters := filters.filter (fun f => !f.isTag)
    (if tagFilters = [] then true
     else tagFilters.any fun f => rmatch f.compiledSource tag) &&
    messageFilters.all fun f => rmatch f.compiledSource msg

/-- The visibility predicate `entry.Priority >= m.minLogLevel &&
m.matchesFilters(entry)` shared by `rebuildViewport`, `appendViewport`
and `getVisibleEntries`. -/
def entryVisible (rmatch : List Char → List Char → Bool)
    (minLogLevel : Priority) (filters : List Filter) (e : Entry) : Bool :=
  decide (minLogLevel.toNat ≤ e.Priority.toNat) &&
    matchesFilters rmatch filters e.Tag e.Message

/-- Go `getVisibleEntries` (model.go:1546-1554). -/
def getVisibleEntries (rmatch : List Char → List Char → Bool)
    (minLogLevel : Priority) (filters : List Filter)
    (parsedEntries : List Entry) : List Entry :=
  parsedEntries.filter (entryVisible rmatch minLogLevel filters)

/-! ## Incremental render cache (model.go:1059-1264)

Entry formatting — `FormatEntryLines` and
`formatEntryWithAllColumnsSelectedLines`, together with the
selected/highlight-style choice, wrapping width, timestamp column and
colors — is byte-for-byte identical between `rebuildViewport` and
`appendViewport` and depends only on the entry and the two booleans
`showTag` and `continuation` computed per entry (all other inputs are
fixed model fields).  It is therefore abstracted as the parameter
`fmt : entry → showTag → continuation → rendered lines`.

The model keeps the fields of `Model` that the two functions read and
write.  The mirrors `lastRenderedTime`, `lastRenderedPrio`,
`lastRenderedPID` and `lastRenderedTID` are written by the source but
never read by any render decision (`shouldContinue` takes the retained
entries `lastRenderedPrev`/`lastRenderedLast` instead), so they are
omitted from the cache state. -/

/-- The render-cache slice of `Model` (model.go:144-157). -/
structure Cache where
  renderedLines : List (List Char)
  lineEntries : List Entry
  /-- Go `entryLineRanges`, recorded as the chronological log of
  `entryLineRanges[entry] = {start, end}` writes; the Go map is the
  last-wins reading of this log. -/
  ranges : List (Entry × Nat × Nat)
  lastRenderedTag : List Char
  lastRenderedCont : Bool
  lastRenderedPrev : Option Entry
  lastRenderedLast : Option Entry
  renderedUpTo : Nat
  viewportContent : List Char
deriving DecidableEq

/-- The empty cache a full rebuild starts from. -/
def emptyCache : Cache :=
  { renderedLines := [], lineEntries := [], ranges := [],
    lastRenderedTag := [], lastRenderedCont := false,
    lastRenderedPrev := none, lastRenderedLast := none,
    renderedUpTo := 0, viewportContent := [] }

/-- Pair every entry with its one-entry lookahead (`next`); the final
entry of the list is paired with `after` (`none` for the loop in the Go
source, where `next` stays `nil` past the end). -/
def pairNext : List Entry → Option Entry → List (Entry × Option Entry)
  | [], _ => []
  | [x], after => [(x, after)]
  | x :: y :: rest, after => (x, some y) :: pairNext (y :: rest) after

/-- One iteration of the shared render loop body
(model.go:1086-1131 = model.go:1190-1239). -/
def renderStep (fmt : Entry → Bool → Bool → List (List Char))
    (c : Cache) (p : Entry × Option Entry) : Cache :=
  let entry := p.1
  let next := p.2
  let continuation := shouldContinue c.lastRenderedLast entry next
  let showTag :=
    if continuation then false
    else if c.lastRenderedCont then true
    else entry.Tag != c.lastRenderedTag
  let entryLines := fmt entry showTag continuation
  let startLine := c.lineEntries.length
  { renderedLines := c.renderedLines ++ entryLines
    lineEntries := c.lineEntries ++ entryLines.map fun _ => entry
    ranges :=
      if entryLines.length > 0 then
        c.ranges ++ [(entry, startLine, c.lineEntries.length + entryLines.length - 1)]
      else c.ranges
    lastRenderedTag := entry.Tag
    lastRenderedCont := continuation
    lastRenderedPrev := c.lastRenderedLast
    lastRenderedLast := some entry
    renderedUpTo := c.renderedUpTo
    viewportContent := c.viewportContent }

/-- The shared render loop. -/
def foldRender (fmt : Entry → Bool → Bool → List (List Char))
    (c : Cache) (ps : List (Entry × Option Entry)) : Cache :=
  ps.foldl (renderStep fmt) c

/-- Go `joinLines` (model.go:1045-1057): lines joined by `'\n'`. -/
def joinLines : List (List Char) → List Char
  | [] => []
  | [l] => l
  | l :: rest => l ++ '\n' :: joinLines rest

/-- Go `rebuildViewport` (model.go:1059-1151).  The `scrollToBottom`
argument and the `viewport.SetContent` call affect only the scroll
widget, not the cache, and are omitted. -/
def rebuildViewport (fmt : Entry → Bool → Bool → List (List Char))
    (rmatch : List Char → List Char → Bool) (minLogLevel : Priority)
    (filters : List Filter) (parsedEntries : List Entry) : Cache :=
  let visible := parsedEntries.filter (entryVisible rmatch minLogLevel filters)
  let c := foldRender fmt emptyCache (pairNext visible none)
  { c with renderedUpTo := parsedEntries.length,
           viewportContent := joinLines c.renderedLines }

/-- The non-fallback body of `appendViewport` (model.go:1190-1263):
render the pending visible entries onto the existing cache.  The Go
loop accumulates the freshly produced lines in `newLines` in lockstep
with its appends to `m.renderedLines`; here `newLines` is recovered as
the suffix the loop added. -/
def appendViewportCore (fmt : Entry → Bool → Bool → List (List Char))
    (c : Cache) (pending : List Entry) (storeLen : Nat) : Cache :=
  let c' := foldRender fmt c (pairNext pending none)
  let newLines := c'.renderedLines.drop c.renderedLines.length
  { c' with
      renderedUpTo := storeLen,
      viewportContent :=
        if newLines = [] then c.viewportContent
        else if c.viewportContent = [] then joinLines newLines
        else c.viewportContent ++ '\n' :: joinLines newLines }

/-- Go `appendViewport` (model.go:1153-1264). -/
def appendViewport (fmt : Entry → Bool → Bool → List (List Char))
    (rmatch : List Char → List Char → Bool) (minLogLevel : Priority)
    (filters : List Filter) (c : Cache) (parsedEntries : List Entry) : Cache :=
  let pending :=
    (parsedEntries.drop c.renderedUpTo).filter (entryVisible rmatch minLogLevel filters)
  match pending, c.lastRenderedLast with
  | p0 :: _, some lastE =>
    if shouldContinue c.lastRenderedPrev lastE (some p0) then
      rebuildViewport fmt rmatch minLogLevel filters parsedEntries
    else
      appendViewportCore fmt c pending parsedEntries.length
  | _, _ => appendViewportCore fmt c pending parsedEntries.length

/-! ## Selection engine (model.go:1594-1886)

Entries are compared by pointer identity in the Go source
(`entry == m.selectionAnchor`, map keys `*logcat.Entry`); the selection
model is therefore generic in the entry type `α` with decidable
equality, standing for the pointer universe.  The selection set
`m.selectedEntries : map[*logcat.Entry]bool` is modelled as a `List α`
read as a set: `setInsert`/`setRemove` below have exactly the map's
insert/delete membership semantics. -/

section Selection

variable {α : Type} [DecidableEq α]

/-- Go's one-pass scans record the index of the *last* element
satisfying the test (`anchorIdx`/`lowestIdx` keep being overwritten);
`none` models the `-1` of a missed scan. -/
def lastMatch (p : α → Bool) : List α → Option Nat
  | [] => none
  | x :: xs =>
    match lastMatch p xs with
    | some k => some (k + 1)
    | none => if p x then some 0 else none

/-- The index of the *first* element satisfying the test (the
`highestIdx` scan guarded by `i < highestIdx` keeps the first hit). -/
def firstMatch (p : α → Bool) : List α → Option Nat
  | [] => none
  | x :: xs => if p x then some 0 else (firstMatch p xs).map (· + 1)

/-- Model of `m.selectedEntries[entry] = true` on the list-as-set selection. -/
def setInsert (sel : List α) (x : α) : List α :=
  if x ∈ sel then sel else x :: sel

/-- Model of `delete(m.selectedEntries, entry)` on the list-as-set selection. -/
def setRemove (sel : List α) (x : α) : List α :=
  sel.filter fun y => y ≠ x

/-- Go `extendSelectionTo` (model.go:1594-1627).  The anchor is read-only
there; the function returns the new selection set.  The Go body scans
`visible` once recording the last indices at which the anchor and the
target occur, then rebuilds the selection as the closed index interval
between them. -/
def extendSelectionTo (visible : List α) (anchor : Option α)
    (sel : List α) (target : α) : List α :=
  match anchor with
  | none => sel
  | some a =>
    match lastMatch (fun e => e == a) visible,
          lastMatch (fun e => e == target) visible with
    | some anchorIdx, some targetIdx =>
      let s := min anchorIdx targetIdx
      let e := max anchorIdx targetIdx
      -- the loop `for i := start; i <= end` inserts exactly the entries
      -- `visible[start..end]`
      (visible.drop s).take (e + 1 - s)
    | _, _ => sel

/-- Go `extendSelectionDown` (model.go:1806-1845).  The guard
`lowestIdx < len(visible)-1` is written `lowestIdx+1 < len(visible)`;
the two agree because `visible` is nonempty whenever the scan found a
selected entry.  `visible.getD i a` is the in-bounds access
`visible[i]` (the default is never used on the taken branches). -/
def extendSelectionDown (visible : List α) (anchor : Option α)
    (sel : List α) : List α :=
  match anchor with
  | none => sel
  | some a =>
    if visible = [] then sel
    else
      match lastMatch (fun e => e == a) visible,
            firstMatch (fun e => decide (e ∈ sel)) visible,
            lastMatch (fun e => decide (e ∈ sel)) visible with
      | some anchorIdx, some highestIdx, some lowestIdx =>
        if highestIdx < anchorIdx then setRemove sel (visible.getD highestIdx a)
        else if lowestIdx + 1 < visible.length then
          setInsert sel (visible.getD (lowestIdx + 1) a)
        else sel
      | _, _, _ => sel

/-- Go `extendSelectionUp` (model.go:1847-1886), the mirror image. -/
def extendSelectionUp (visible : List α) (anchor : Option α)
    (sel : List α) : List α :=
  match anchor with
  | none => sel
  | some a =>
    if visible = [] then sel
    else
      match lastMatch (fun e => e == a) visible,
            firstMatch (fun e => decide (e ∈ sel)) visible,
            lastMatch (fun e => decide (e ∈ sel)) visible with
      | some anchorIdx, some highestIdx, some lowestIdx =>
        if anchorIdx < lowestIdx then setRemove sel (visible.getD lowestIdx a)
        else if 0 < highestIdx then
          setInsert sel (visible.getD (highestIdx - 1) a)
        else sel
      | _, _, _ => sel

/-- The closed interval `visible[lo..hi]` of a visible ordering, the
shape every well-formed selection has. -/
def ivl (visible : List α) (lo hi : Nat) : List α :=
  (visible.drop lo).take (hi + 1 - lo)

end Selection

/-! ## Stream manager lifecycle (ringbuffer.go:1390-1769)

`Stop` and the reconnect monitor live on goroutines and OS processes;
the embedding keeps the channel-close/process state that `Stop`
manipulates, with Go's channel-close semantics: closing an
already-closed channel panics, modelled as `none`. -/

/-- The `Manager` state read and written by `Stop` (ringbuffer.go:
1390-1405): whether each stop channel has been closed, whether a reader
stop channel is currently installed (`m.readStop != nil`), and the
external process handle state. -/
structure ManagerState where
  /-- Go `m.readStop` is a fresh open channel or `nil`; `true` = non-nil. -/
  readStopInstalled : Bool
  stopChanClosed : Bool
  monitorStopChanClosed : Bool
  procAlive : Bool
  procWaited : Bool
deriving DecidableEq

/-- A `Manager` as produced by `NewManager` + `Start` + `ReadLines`:
fresh open channels, a reader installed, a live subprocess. -/
def startedManager : ManagerState :=
  { readStopInstalled := true, stopChanClosed := false,
    monitorStopChanClosed := false, procAlive := true, procWaited := false }

/-- Go `stopProcess` (ringbuffer.go:1758-1769): kill and wait the current
process when one is present. -/
def stopProcess (m : ManagerState) : ManagerState :=
  if m.procAlive then { m with procAlive := false, procWaited := true } else m

/-- Go `Manager.Stop` (ringbuffer.go:1696-1708).  `close` on an
already-closed channel panics in Go; a panic is `none`.  `m.readStop`
is closed only when non-nil and is then set to `nil`, so that close
never double-fires; `m.stopChan` and `m.monitorStopChan` are closed
unconditionally. -/
def managerStop (m : ManagerState) : Option ManagerState :=
  let m := { m with readStopInstalled := false }
  if m.stopChanClosed then none
  else
    let m := { m with stopChanClosed := true }
    if m.monitorStopChanClosed then none
    else some (stopProcess { m with monitorStopChanClosed := true })

/-! ### Reconnect monitor status emissions (ringbuffer.go:1523-1556)

`monitorPID` blocks on `adb.MonitorPID` (returns when the PID dies or a
stop is signalled), `adb.WaitForPID` (returns the reappeared PID, or
`""` on stop) and `m.restart()`.  Each loop iteration is driven by the
outcome of those calls; the embedding takes the outcomes as input and
computes the sequence of strings sent on `m.statusChan`. -/

/-- The outcome of one `monitorPID` loop iteration. -/
inductive CycleOutcome where
  /-- Go `adb.MonitorPID` returned because the stop channel fired (the
  `select` then returns before emitting anything). -/
  | stopSignal
  /-- The PID died, and `adb.WaitForPID` was cancelled by the stop
  channel (returned `""`). -/
  | stoppedDuringWait
  /-- The PID died and the app reappeared under a new PID;
  `restartOk` is whether `m.restart()` succeeded. -/
  | reappeared (restartOk : Bool)
deriving DecidableEq

/-- The statuses `monitorPID` sends, given the outcome of each loop
iteration (the list ends when the monitor returns or the supplied
outcomes run out). -/
def monitorEmits : List CycleOutcome → List String
  | [] => []
  | .stopSignal :: _ => []
  | .stoppedDuringWait :: _ => ["stopped", "reconnecting"]
  | .reappeared restartOk :: rest =>
    if restartOk then "stopped" :: "reconnecting" :: "running" :: monitorEmits rest
    else ["stopped", "reconnecting", "error"]

/-- The status `Start` sends before the monitor begins
(ringbuffer.go:1480-1490): `"running"`, once the app's PID resolves. -/
def startEmits (pidResolved : Bool) : List String :=
  if pidResolved then ["running"] else []

/-- A raw line in the expected threadtime shape, assembled from its
parts: four metadata tokens separated by whitespace runs `ws₁..ws₄`, a
severity character, the whitespace run `ws₅`, the tag, the colon, and
`rest`, the raw text after the colon.  Used only to quantify theorem
statements over all well-shaped lines. -/
def threadtimeLine (t1 ws1 t2 ws2 t3 ws3 t4 ws4 : List Char) (c : Char)
    (ws5 tag rest : List Char) : List Char :=
  t1 ++ (ws1 ++ (t2 ++ (ws2 ++ (t3 ++ (ws3 ++ (t4 ++ (ws4 ++ (c :: (ws5 ++ (tag ++ (':' :: rest)))))))))))

/-- The well-shapedness conditions under which the threadtime parts are
recoverable: each metadata token is nonempty and whitespace-free, the
separators are nonempty whitespace runs, the severity character is not
whitespace and does not occur in any earlier token (its first
occurrence in the line is the severity column), and the tag is
nonempty, whitespace-free and colon-free. -/
def WellShaped (t1 ws1 t2 ws2 t3 ws3 t4 ws4 : List Char) (c : Char)
    (ws5 tag : List Char) : Prop :=
  (t1 ≠ [] ∧ ∀ d ∈ t1, isSpace d = false) ∧
  (t2 ≠ [] ∧ ∀ d ∈ t2, isSpace d = false) ∧
  (t3 ≠ [] ∧ ∀ d ∈ t3, isSpace d = false) ∧
  (t4 ≠ [] ∧ ∀ d ∈ t4, isSpace d = false) ∧
  (ws1 ≠ [] ∧ ∀ d ∈ ws1, isSpace d = true) ∧
  (ws2 ≠ [] ∧ ∀ d ∈ ws2, isSpace d = true) ∧
  (ws3 ≠ [] ∧ ∀ d ∈ ws3, isSpace d = true) ∧
  (ws4 ≠ [] ∧ ∀ d ∈ ws4, isSpace d = true) ∧
  (ws5 ≠ [] ∧ ∀ d ∈ ws5, isSpace d = true) ∧
  isSpace c = false ∧ c ∉ t1 ∧ c ∉ t2 ∧ c ∉ t3 ∧ c ∉ t4 ∧
  (tag ≠ [] ∧ (∀ d ∈ tag, isSpace d = false) ∧ ':' ∉ tag)

instance (t1 ws1 t2 ws2 t3 ws3 t4 ws4 : List Char) (c : Char) (ws5 tag : List Char) :
    Decidable (WellShaped t1 ws1 t2 ws2 t3 ws3 t4 ws4 c ws5 tag) := by
  unfold WellShaped
  infer_instance

end Logdog

/-! # Theorems -/

namespace Logdog

/-! ## Generic list lemmas -/

theorem dropWhile_cons_neg {p : Char → Bool} {b : Char} {t : List Char}
    (h : p b = false) : List.dropWhile p (b :: t) = b :: t := by
  simp [List.dropWhile_cons, h]

theorem dropWhile_append_all {p : Char → Bool} {l₁ l₂ : List Char}
    (h : ∀ a ∈ l₁, p a = true) :
    List.dropWhile p (l₁ ++ l₂) = List.dropWhile p l₂ := by
  induction l₁ with
  | nil => rfl
  | cons a t ih =>
    have ha : p a = true := h a (by simp)
    simp only [List.cons_append, List.dropWhile_cons, ha, if_true]
    exact ih fun x hx => h x (by simp [hx])

theorem takeWhile_append_all {p : Char → Bool} {l₁ l₂ : List Char}
    (h : ∀ a ∈ l₁, p a = true) :
    List.takeWhile p (l₁ ++ l₂) = l₁ ++ List.takeWhile p l₂ := by
  induction l₁ with
  | nil => rfl
  | cons a t ih =>
    have ha : p a = true := h a (by simp)
    simp only [List.cons_append, List.takeWhile_cons, ha, if_true]
    rw [ih fun x hx => h x (by simp [hx])]

theorem dropWhile_append_head_neg {p : Char → Bool} {b : Char} {l₁ l₂ : List Char}
    (h : p b = false) :
    List.dropWhile p (l₁ ++ b :: l₂) = List.dropWhile p l₁ ++ b :: l₂ := by
  induction l₁ with
  | nil => simp [dropWhile_cons_neg h]
  | cons a t ih =>
    by_cases ha : p a
    · simp only [List.cons_append, List.dropWhile_cons, ha, if_true]
      exact ih
    · simp only [List.cons_append, List.dropWhile_cons, ha, Bool.false_eq_true, if_false]

theorem dropWhile_all_neg {p : Char → Bool} {l : List Char}
    (h : ∀ a ∈ l, p a = false) : List.dropWhile p l = l := by
  cases l with
  | nil => rfl
  | cons a t => exact dropWhile_cons_neg (h a (by simp))

/-! ## `fields` lemmas -/

theorem fields_space {c : Char} {s : List Char} (h : isSpace c = true) :
    fields (c :: s) = fields s := by
  simp [fields, fieldsAux, h]

theorem fields_allspace_append {ws x : List Char}
    (h : ∀ d ∈ ws, isSpace d = true) : fields (ws ++ x) = fields x := by
  induction ws with
  | nil => rfl
  | cons a t ih =>
    rw [List.cons_append, fields_space (h a (by simp))]
    exact ih fun d hd => h d (by simp [hd])

theorem fieldsAux_token {s cur : List Char} (h : cur ≠ []) :
    fieldsAux s cur =
      (cur.reverse ++ s.takeWhile (fun d => !isSpace d)) ::
        fields (s.dropWhile (fun d => !isSpace d)) := by
  induction s generalizing cur with
  | nil => simp [fieldsAux, h, fields]
  | cons c s ih =>
    by_cases hc : isSpace c
    · have h1 : fieldsAux (c :: s) cur = cur.reverse :: fieldsAux s [] := by
        simp [fieldsAux, hc, h]
      have hcf : (fun d => !isSpace d) c = false := by simp [hc]
      rw [h1, List.takeWhile_cons, List.dropWhile_cons]
      simp only [hcf, Bool.false_eq_true, if_false]
      rw [fields_space hc]
      simp [fields]
    · have hcb : isSpace c = false := by revert hc; cases isSpace c <;> simp
      have h1 : fieldsAux (c :: s) cur = fieldsAux s (c :: cur) := by
        simp [fieldsAux, hcb]
      have hcf : (fun d => !isSpace d) c = true := by simp [hcb]
      rw [h1, ih (by simp), List.takeWhile_cons, List.dropWhile_cons]
      simp only [hcf, if_true]
      simp

theorem fields_token {a : Char} {tok x : List Char}
    (hall : ∀ d ∈ a :: tok, isSpace d = false) :
    fields ((a :: tok) ++ x) =
      ((a :: tok) ++ x.takeWhile (fun d => !isSpace d)) ::
        fields (x.dropWhile (fun d => !isSpace d)) := by
  have ha : isSpace a = false := hall a (by simp)
  have htok : ∀ d ∈ tok, (fun d => !isSpace d) d = true := by
    intro d hd; simp [hall d (by simp [hd])]
  have h1 : fields ((a :: tok) ++ x) = fieldsAux (tok ++ x) [a] := by
    simp [fields, fieldsAux, ha]
  rw [h1, fieldsAux_token (by simp)]
  rw [takeWhile_append_all htok, dropWhile_append_all htok]
  simp

theorem fields_token_sep {tok x : List Char}
    (hne : tok ≠ []) (hall : ∀ d ∈ tok, isSpace d = false)
    (hx : x = [] ∨ ∃ b t, x = b :: t ∧ isSpace b = true) :
    fields (tok ++ x) = tok :: fields x := by
  obtain ⟨a, tok', rfl⟩ := List.exists_cons_of_ne_nil hne
  rw [fields_token hall]
  rcases hx with rfl | ⟨b, t, rfl, hb⟩
  · simp
  · have : (fun d => !isSpace d) b = false := by simp [hb]
    simp [List.takeWhile_cons, List.dropWhile_cons, this, hb]

/-! ## `strIndex` lemmas -/

theorem strIndex_single_cons {c a : Char} {s : List Char} :
    strIndex [c] (a :: s) =
      if a = c then some 0 else (strIndex [c] s).map (· + 1) := by
  rw [strIndex]
  by_cases h : a = c
  · subst h
    simp [List.isPrefixOf]
  · have : (c == a) = false := by simp [Ne.symm h]
    simp [List.isPrefixOf, this, h]

theorem strIndex_single_self {c : Char} {s : List Char} :
    strIndex [c] (c :: s) = some 0 := by
  simp [strIndex_single_cons]

theorem strIndex_single_append {c : Char} {pre s : List Char} (h : c ∉ pre) :
    strIndex [c] (pre ++ s) = (strIndex [c] s).map (· + pre.length) := by
  induction pre with
  | nil =>
    cases hs : strIndex [c] s <;> simp [hs]
  | cons a t ih =>
    have hne : a ≠ c := fun hac => h (by simp [hac])
    have ht : c ∉ t := fun hct => h (by simp [hct])
    rw [List.cons_append, strIndex_single_cons, if_neg hne, ih ht]
    cases hs : strIndex [c] s <;> simp [Nat.add_assoc, Nat.add_comm 1]

/-! ## Trimming lemmas -/

theorem dropWhile_eq_self_head {p : Char → Bool} {b : Char} {t : List Char}
    (h : List.dropWhile p (b :: t) = b :: t) : p b = false := by
  by_contra hb
  have hb' : p b = true := by revert hb; cases p b <;> simp
  rw [List.dropWhile_cons, if_pos hb'] at h
  have : (List.dropWhile p t).length ≤ t.length := (List.dropWhile_sublist p).length_le
  rw [h] at this
  simp at this

theorem trimSpace_all_nonspace {l : List Char}
    (h : ∀ d ∈ l, isSpace d = false) : trimSpace l = l := by
  unfold trimSpace trimRightSpace
  rw [dropWhile_all_neg h, dropWhile_all_neg (fun d hd => h d (by simpa using hd))]
  simp

theorem trimRightSpace_append_cons {u rest : List Char} {b : Char}
    (hb : isSpace b = false) :
    trimRightSpace (u ++ b :: rest) = u ++ b :: trimRightSpace rest := by
  unfold trimRightSpace
  rw [List.reverse_append, List.reverse_cons, List.append_assoc,
    List.singleton_append, dropWhile_append_head_neg hb]
  simp

theorem trimSpace_shape {ws5 tag rest : List Char}
    (hws : ∀ d ∈ ws5, isSpace d = true)
    (htag : tag ≠ []) (htagns : ∀ d ∈ tag, isSpace d = false) :
    trimSpace (ws5 ++ tag ++ ':' :: rest) = tag ++ ':' :: trimRightSpace rest := by
  obtain ⟨a, tag', rfl⟩ := List.exists_cons_of_ne_nil htag
  unfold trimSpace
  rw [List.append_assoc, dropWhile_append_all hws, List.cons_append,
    dropWhile_cons_neg (htagns a (by simp)), ← List.cons_append,
    trimRightSpace_append_cons (by decide)]

theorem fields_tok_ws {tok ws x : List Char}
    (htok : tok ≠ []) (hns : ∀ d ∈ tok, isSpace d = false)
    (hws : ws ≠ []) (hsp : ∀ d ∈ ws, isSpace d = true) :
    fields (tok ++ (ws ++ x)) = tok :: fields x := by
  obtain ⟨b, w, rfl⟩ := List.exists_cons_of_ne_nil hws
  rw [fields_token_sep htok hns (Or.inr ⟨b, w ++ x, by simp, hsp b (by simp)⟩)]
  rw [fields_allspace_append hsp]

/-! ## The parser on well-shaped lines -/

/-- On a well-shaped threadtime line, `ParseLine` recovers the parts:
the timestamp is the first two tokens rejoined with a single space, PID
and TID are the third and fourth tokens, the severity is the first
character of the fifth token mapped through `PriorityFromChar`, the tag
is the text before the first `':'` after the severity token, and the
message is the text after that `':'` with trailing whitespace removed
(by `strings.TrimSpace`) and at most one leading separator space
stripped. -/
theorem parseLine_wellShaped
    {t1 ws1 t2 ws2 t3 ws3 t4 ws4 : List Char} {c : Char} {ws5 tag : List Char}
    (rest : List Char)
    (h : WellShaped t1 ws1 t2 ws2 t3 ws3 t4 ws4 c ws5 tag) :
    ParseLine (threadtimeLine t1 ws1 t2 ws2 t3 ws3 t4 ws4 c ws5 tag rest) =
      some { Timestamp := t1 ++ ' ' :: t2, PID := t3, TID := t4,
             Priority := PriorityFromChar c, Tag := tag,
             Message := stripOneLeadingSpace (trimRightSpace rest),
             Raw := threadtimeLine t1 ws1 t2 ws2 t3 ws3 t4 ws4 c ws5 tag rest } := by
  obtain ⟨⟨h1ne, h1ns⟩, ⟨h2ne, h2ns⟩, ⟨h3ne, h3ns⟩, ⟨h4ne, h4ns⟩,
    ⟨hw1ne, hw1sp⟩, ⟨hw2ne, hw2sp⟩, ⟨hw3ne, hw3sp⟩, ⟨hw4ne, hw4sp⟩,
    ⟨hw5ne, hw5sp⟩, hcns, hct1, hct2, hct3, hct4, htagne, htagns, htagnc⟩ := h
  set L := threadtimeLine t1 ws1 t2 ws2 t3 ws3 t4 ws4 c ws5 tag rest with hL
  -- the token decomposition of the line
  have hfields : fields L =
      t1 :: t2 :: t3 :: t4 :: [c] :: fields (tag ++ ':' :: rest) := by
    rw [hL]
    unfold threadtimeLine
    rw [fields_tok_ws h1ne h1ns hw1ne hw1sp,
      fields_tok_ws h2ne h2ns hw2ne hw2sp,
      fields_tok_ws h3ne h3ns hw3ne hw3sp,
      fields_tok_ws h4ne h4ns hw4ne hw4sp,
      show c :: (ws5 ++ (tag ++ ':' :: rest)) = [c] ++ (ws5 ++ (tag ++ ':' :: rest)) from rfl,
      fields_tok_ws (by simp) (by simpa using hcns) hw5ne hw5sp]
  have htailne : fields (tag ++ ':' :: rest) ≠ [] := by
    obtain ⟨a, tag', rfl⟩ := List.exists_cons_of_ne_nil htagne
    rw [fields_token htagns]
    simp
  have hlen6 : ¬ (fields L).length < 6 := by
    rw [hfields]
    have : 0 < (fields (tag ++ ':' :: rest)).length := List.length_pos.mpr htailne
    simp only [List.length_cons]
    omega
  have hLne : L ≠ [] := by
    rw [hL]; unfold threadtimeLine
    intro hnil
    exact h1ne (List.append_eq_nil.mp hnil).1
  -- the prefix of the line before the severity character
  set pre := t1 ++ (ws1 ++ (t2 ++ (ws2 ++ (t3 ++ (ws3 ++ (t4 ++ ws4)))))) with hpre
  have hsplit : L = pre ++ c :: (ws5 ++ (tag ++ ':' :: rest)) := by
    rw [hL, hpre]; unfold threadtimeLine; simp
  have hcpre : c ∉ pre := by
    rw [hpre]
    intro hc
    simp only [List.mem_append] at hc
    have hcws : ∀ ws : List Char, (∀ d ∈ ws, isSpace d = true) → c ∉ ws := by
      intro ws hws hmem
      rw [hws c hmem] at hcns
      exact Bool.true_eq_false.mp hcns
    rcases hc with hc | hc | hc | hc | hc | hc | hc | hc
    · exact hct1 hc
    · exact hcws ws1 hw1sp hc
    · exact hct2 hc
    · exact hcws ws2 hw2sp hc
    · exact hct3 hc
    · exact hcws ws3 hw3sp hc
    · exact hct4 hc
    · exact hcws ws4 hw4sp hc
  have hidx : strIndex [c] L = some pre.length := by
    rw [hsplit, strIndex_single_append hcpre, strIndex_single_self]
    simp
  have hdropL : L.drop (pre.length + 1) = ws5 ++ (tag ++ ':' :: rest) := by
    rw [hsplit, show pre ++ c :: (ws5 ++ (tag ++ ':' :: rest)) =
      (pre ++ [c]) ++ (ws5 ++ (tag ++ ':' :: rest)) by simp,
      show pre.length + 1 = (pre ++ [c]).length by simp]
    exact List.drop_left _ _
  have hidxlt : pre.length + 1 < L.length := by
    rw [hsplit]
    obtain ⟨b, w, rfl⟩ := List.exists_cons_of_ne_nil hw5ne
    simp only [List.length_append, List.length_cons]
    omega
  set R := trimRightSpace rest with hR
  have hremainder : trimSpace (ws5 ++ (tag ++ ':' :: rest)) = tag ++ ':' :: R := by
    rw [← List.append_assoc]
    rw [show (ws5 ++ tag) ++ ':' :: rest = ws5 ++ tag ++ ':' :: rest by simp]
    exact trimSpace_shape hw5sp htagne htagns
  obtain ⟨a, tag', htagcons⟩ := List.exists_cons_of_ne_nil htagne
  have hanospace : (a == ' ') = false := by
    have := htagns a (by rw [htagcons]; simp)
    unfold isSpace at this
    by_contra hcon
    have : (a == ' ') = true := by revert hcon; cases (a == ' ') <;> simp
    simp [this] at *
  have htrimmed : (tag ++ ':' :: R).dropWhile (fun ch => ch == ' ') = tag ++ ':' :: R := by
    rw [htagcons, List.cons_append]
    exact dropWhile_cons_neg hanospace
  have hcolonidx : strIndex [':'] (tag ++ ':' :: R) = some tag.length := by
    rw [strIndex_single_append htagnc, strIndex_single_self]
    simp
  have htake : (tag ++ ':' :: R).take tag.length = tag := List.take_left _ _
  have hdropcolon : (tag ++ ':' :: R).drop (tag.length + 1) = R := by
    rw [show tag ++ ':' :: R = (tag ++ [':']) ++ R by simp,
      show tag.length + 1 = (tag ++ [':']).length by simp]
    exact List.drop_left _ _
  have htm : parseTagMessage L [c] = (tag, stripOneLeadingSpace R) := by
    unfold parseTagMessage
    rw [hidx]
    simp only [List.length_singleton, hidxlt, if_true, hdropL, hremainder, htrimmed,
      hcolonidx]
    rw [htake, hdropcolon, trimSpace_all_nonspace htagns]
    by_cases hRnil : R = []
    · have hcond : ¬ (tag.length + 1 < (tag ++ ':' :: R).length) := by
        rw [hRnil]; simp
      rw [if_neg hcond, hRnil]
      simp [stripOneLeadingSpace]
    · have hcond : tag.length + 1 < (tag ++ ':' :: R).length := by
        have : 0 < R.length := List.length_pos.mpr hRnil
        simp only [List.length_append, List.length_cons]
        omega
      rw [if_pos hcond]
  -- assemble
  unfold ParseLine
  rw [if_neg hLne, hfields]
  have hn : 0 < (fields (tag ++ ':' :: rest)).length := List.length_pos.mpr htailne
  rw [if_neg (by simp only [List.length_cons]; omega)]
  simp only [List.getD_cons_succ, List.getD_cons_zero, List.head?_cons, htm]

/-- Nonempty lines with fewer than six tokens degrade to the
Unknown-severity entry carrying the raw text. -/
theorem parseLine_malformed {s : List Char} (hne : s ≠ [])
    (hlen : (fields s).length < 6) :
    ParseLine s = some { Timestamp := [], PID := [], TID := [],
                         Priority := .Unknown, Tag := [], Message := s, Raw := s } := by
  unfold ParseLine
  rw [if_neg hne, if_pos hlen]

/-- Every nonempty line produces exactly one entry. -/
theorem parseLine_isSome {s : List Char} (hne : s ≠ []) :
    (ParseLine s).isSome = true := by
  unfold ParseLine
  rw [if_neg hne]
  by_cases h : (fields s).length < 6
  · rw [if_pos h]; rfl
  · rw [if_neg h]; rfl

/-- A nonempty list whose right trim is itself ends in a non-space
character, so appending it to anything leaves the right trim alone. -/
theorem trimRightSpace_append_of_trimmed {u msg : List Char} (hne : msg ≠ [])
    (h : trimRightSpace msg = msg) : trimRightSpace (u ++ msg) = u ++ msg := by
  have hrev : msg.reverse.dropWhile isSpace = msg.reverse := by
    have := congrArg List.reverse h
    rwa [trimRightSpace, List.reverse_reverse] at this
  obtain ⟨b, vs, hb⟩ := List.exists_cons_of_ne_nil (fun hc : msg.reverse = [] =>
    hne (by simpa using congrArg List.reverse hc))
  have hbns : isSpace b = false := dropWhile_eq_self_head (hb ▸ hrev)
  unfold trimRightSpace
  rw [List.reverse_append, hb, List.cons_append, dropWhile_cons_neg hbns, ← List.cons_append,
    ← hb, ← List.reverse_append, List.reverse_reverse]

/-! ## Claim C1 : totality of the parser -/

/-- C1 counterexample: contrary to the claim that `parse` is total and
never fails on any raw input line, the parser rejects the empty line
with an error (`"empty line"`), modelled as `none`. -/
theorem claim_C1_counterexample : ParseLine [] = none := rfl

/-- C1 (amended: restricted to nonempty raw lines): for every nonempty
raw line the parser returns exactly one entry, and whenever the line
does not split into at least six whitespace-delimited tokens the entry
has Unknown severity, message equal to the full raw text, and empty
timestamp/tag/pid/tid. -/
theorem claim_C1 (s : List Char) (hne : s ≠ []) :
    (ParseLine s).isSome = true ∧
    ((fields s).length < 6 →
      ParseLine s = some { Timestamp := [], PID := [], TID := [],
                           Priority := .Unknown, Tag := [], Message := s, Raw := s }) :=
  ⟨parseLine_isSome hne, fun hlen => parseLine_malformed hne hlen⟩

/-- C1 witness: the amended theorem evaluated on the malformed line
`"hello world"`. -/
theorem claim_C1_witness :
    (ParseLine "hello world".data).isSome = true ∧
    ParseLine "hello world".data =
      some { Timestamp := [], PID := [], TID := [], Priority := .Unknown, Tag := [],
             Message := "hello world".data, Raw := "hello world".data } :=
  ⟨(claim_C1 "hello world".data (by decide)).1,
   (claim_C1 "hello world".data (by decide)).2 (by decide)⟩

/-! ## Claim C2 : exact recovery on well-shaped lines -/

/-- C2 counterexample: three failures of the claim as stated.  First,
the empty string is an "other string" but the parser fails on it
instead of returning an Unknown-severity entry.  Second, on a line
whose text after the tag separator is `" hi "` the parser returns
message `"hi"`, not the exact after-separator text: `strings.TrimSpace`
removes the trailing whitespace, so the message is not recovered
exactly.  Third, the six-token line `"D b c d D x:y"` is not in the
expected threadtime shape (its severity token `"D"` first occurs at the
start of the line, so `strings.Index` locks onto the wrong column), yet
the parser does not return Unknown severity with the input as message:
it returns Debug severity with message `"y"`. -/
theorem claim_C2_counterexample :
    (ParseLine []).isNone = true ∧
    (ParseLine "12-14 15:31:12.345 1234 5678 D Tag: hi ".data =
      some { Timestamp := "12-14 15:31:12.345".data, PID := "1234".data, TID := "5678".data,
             Priority := .Debug, Tag := "Tag".data, Message := "hi".data,
             Raw := "12-14 15:31:12.345 1234 5678 D Tag: hi ".data } ∧
     ("hi".data : List Char) ≠ "hi ".data) ∧
    (ParseLine "D b c d D x:y".data =
      some { Timestamp := "D b".data, PID := "c".data, TID := "d".data,
             Priority := .Debug, Tag := "b c d D x".data, Message := "y".data,
             Raw := "D b c d D x:y".data } ∧
     Priority.Debug ≠ Priority.Unknown ∧ ("y".data : List Char) ≠ "D b c d D x:y".data) := by
  refine ⟨rfl, ⟨by decide, by decide⟩, by decide, by decide, by decide⟩

/-- C2 (amended: nonempty inputs; the recovered message is the text
after the separator with trailing whitespace right-trimmed and at most
one leading separator space stripped; the Unknown catch-all restricted
to lines with fewer than six tokens): for every line in the expected
threadtime shape (`WellShaped`), `ParseLine` recovers the timestamp as
the first two tokens rejoined with a single space, the pid and tid as
tokens 3 and 4, the severity as the first character of token 5 mapped
through the fixed table, the tag as the text before the first `':'`
after the severity token, and the message as the right-trimmed
after-colon text with one separator space stripped; and every nonempty
string with fewer than six whitespace-delimited tokens yields Unknown
severity with message equal to the input and empty
timestamp/tag/pid/tid.  (Nonempty six-plus-token lines outside the
expected shape are parsed by the same token/colon logic and need not
yield Unknown, as the counterexample's third input shows.) -/
theorem claim_C2 :
    (∀ (t1 ws1 t2 ws2 t3 ws3 t4 ws4 : List Char) (c : Char) (ws5 tag rest : List Char),
      WellShaped t1 ws1 t2 ws2 t3 ws3 t4 ws4 c ws5 tag →
      ParseLine (threadtimeLine t1 ws1 t2 ws2 t3 ws3 t4 ws4 c ws5 tag rest) =
        some { Timestamp := t1 ++ ' ' :: t2, PID := t3, TID := t4,
               Priority := PriorityFromChar c, Tag := tag,
               Message := stripOneLeadingSpace (trimRightSpace rest),
               Raw := threadtimeLine t1 ws1 t2 ws2 t3 ws3 t4 ws4 c ws5 tag rest }) ∧
    (∀ s : List Char, s ≠ [] → (fields s).length < 6 →
      ParseLine s = some { Timestamp := [], PID := [], TID := [],
                           Priority := .Unknown, Tag := [], Message := s, Raw := s }) :=
  ⟨fun _ _ _ _ _ _ _ _ _ _ _ rest h => parseLine_wellShaped rest h,
   fun _ hne hlen => parseLine_malformed hne hlen⟩

/-- C2 witness: the recovery theorem evaluated on the well-shaped line
`"01-02 03:04:05.678 11 22 W Net: request failed"` and the malformed
branch on `"two tokens"`. -/
theorem claim_C2_witness :
    ParseLine "01-02 03:04:05.678 11 22 W Net: request failed".data =
      some { Timestamp := "01-02 03:04:05.678".data, PID := "11".data, TID := "22".data,
             Priority := .Warn, Tag := "Net".data, Message := "request failed".data,
             Raw := "01-02 03:04:05.678 11 22 W Net: request failed".data } ∧
    ParseLine "two tokens".data =
      some { Timestamp := [], PID := [], TID := [], Priority := .Unknown, Tag := [],
             Message := "two tokens".data, Raw := "two tokens".data } := by
  constructor
  · have h := claim_C2.1 "01-02".data " ".data "03:04:05.678".data " ".data "11".data
      " ".data "22".data " ".data 'W' " ".data "Net".data " request failed".data (by decide)
    rw [show threadtimeLine "01-02".data " ".data "03:04:05.678".data " ".data "11".data
        " ".data "22".data " ".data 'W' " ".data "Net".data " request failed".data =
        "01-02 03:04:05.678 11 22 W Net: request failed".data by decide,
      show stripOneLeadingSpace (trimRightSpace " request failed".data) =
        "request failed".data by decide] at h
    exact h
  · exact claim_C2.2 "two tokens".data (by decide) (by decide)

/-! ## Claim C3 : preservation of message-internal leading whitespace -/

/-- C3: when the tag separator `':'` is followed by a run of `pad + 1`
spaces and then message text, the parser strips exactly the one
separating space and keeps the remaining `pad` spaces verbatim in the
message — stated for every well-shaped line and every message text
without trailing whitespace; and, in particular, the spec's example
line parses to severity Debug, tag `"MyTag"`, and the message
`"    Indented message"` with its four leading spaces preserved. -/
theorem claim_C3 :
    (∀ (t1 ws1 t2 ws2 t3 ws3 t4 ws4 : List Char) (c : Char) (ws5 tag : List Char)
       (pad : Nat) (msg : List Char),
      WellShaped t1 ws1 t2 ws2 t3 ws3 t4 ws4 c ws5 tag →
      msg ≠ [] → trimRightSpace msg = msg →
      ParseLine (threadtimeLine t1 ws1 t2 ws2 t3 ws3 t4 ws4 c ws5 tag
          (spaces (pad + 1) ++ msg)) =
        some { Timestamp := t1 ++ ' ' :: t2, PID := t3, TID := t4,
               Priority := PriorityFromChar c, Tag := tag,
               Message := spaces pad ++ msg,
               Raw := threadtimeLine t1 ws1 t2 ws2 t3 ws3 t4 ws4 c ws5 tag
                 (spaces (pad + 1) ++ msg) }) ∧
    ParseLine "12-14 15:31:12.345  1234  5678 D MyTag:     Indented message".data =
      some { Timestamp := "12-14 15:31:12.345".data, PID := "1234".data, TID := "5678".data,
             Priority := .Debug, Tag := "MyTag".data,
             Message := "    Indented message".data,
             Raw := "12-14 15:31:12.345  1234  5678 D MyTag:     Indented message".data } := by
  constructor
  · intro t1 ws1 t2 ws2 t3 ws3 t4 ws4 c ws5 tag pad msg h hne htr
    have hmain := parseLine_wellShaped (spaces (pad + 1) ++ msg) h
    rw [trimRightSpace_append_of_trimmed hne htr] at hmain
    rw [show spaces (pad + 1) = ' ' :: spaces pad from by
        simp [spaces, List.replicate_succ]] at hmain
    rw [show stripOneLeadingSpace (' ' :: spaces pad ++ msg) = spaces pad ++ msg from by
        simp [stripOneLeadingSpace]] at hmain
    exact hmain
  · decide

/-- C3 witness: the padding theorem evaluated at `pad = 2` on a
concrete well-shaped line. -/
theorem claim_C3_witness :
    ParseLine "03-04 05:06:07.890 77 88 E App:   at Foo.bar".data =
      some { Timestamp := "03-04 05:06:07.890".data, PID := "77".data, TID := "88".data,
             Priority := .Error, Tag := "App".data, Message := "  at Foo.bar".data,
             Raw := "03-04 05:06:07.890 77 88 E App:   at Foo.bar".data } := by
  have h := claim_C3.1 "03-04".data " ".data "05:06:07.890".data " ".data "77".data
    " ".data "88".data " ".data 'E' " ".data "App".data 2 "at Foo.bar".data
    (by decide) (by decide) (by decide)
  rw [show threadtimeLine "03-04".data " ".data "05:06:07.890".data " ".data "77".data
      " ".data "88".data " ".data 'E' " ".data "App".data
      (spaces 3 ++ "at Foo.bar".data) =
      "03-04 05:06:07.890 77 88 E App:   at Foo.bar".data by decide,
    show spaces 2 ++ "at Foo.bar".data = "  at Foo.bar".data by decide] at h
  exact h

/-! ## Claim C5 : the continuation rule -/

/-- Evaluation of `shouldContinue` as a single boolean formula. -/
theorem shouldContinue_eq (prev : Option Entry) (curr : Entry) (next : Option Entry) :
    shouldContinue prev curr next =
      (sameEntryMeta prev (some curr) &&
       (isStackTraceLine curr.Message ||
        (sameEntryMeta (some curr) next &&
          next.elim false fun n => isStackTraceLine n.Message))) := by
  unfold shouldContinue
  cases h1 : sameEntryMeta prev (some curr) <;>
    cases h2 : isStackTraceLine curr.Message <;>
      cases h3 : sameEntryMeta (some curr) next <;>
        simp [h1, h2, h3]

/-- C5: an entry continues the previous visible entry exactly when its
timestamp, tag, severity, pid and tid all equal those of the previous
entry, and either its own message matches the stack-trace pattern, or
the next visible entry carries the same metadata and its message
matches the pattern; and the stack-trace pattern holds exactly when the
message, after trimming leading spaces and tabs, starts with `"at "`,
`"Caused by:"`, `"Suppressed:"`, `"..."` or `"Stack trace:"`. -/
theorem claim_C5 :
    (∀ (prev next : Option Entry) (curr : Entry),
      shouldContinue prev curr next = true ↔
        ((∃ p, prev = some p ∧ p.Timestamp = curr.Timestamp ∧ p.Tag = curr.Tag ∧
            p.Priority = curr.Priority ∧ p.PID = curr.PID ∧ p.TID = curr.TID) ∧
         (isStackTraceLine curr.Message = true ∨
          ∃ n, next = some n ∧ curr.Timestamp = n.Timestamp ∧ curr.Tag = n.Tag ∧
            curr.Priority = n.Priority ∧ curr.PID = n.PID ∧ curr.TID = n.TID ∧
            isStackTraceLine n.Message = true))) ∧
    (∀ msg : List Char,
      isStackTraceLine msg = true ↔
        (let trimmed := msg.dropWhile (fun c => c == ' ' || c == '\t')
         ("at ".data).isPrefixOf trimmed = true ∨
         ("Caused by:".data).isPrefixOf trimmed = true ∨
         ("Suppressed:".data).isPrefixOf trimmed = true ∨
         ("...".data).isPrefixOf trimmed = true ∨
         ("Stack trace:".data).isPrefixOf trimmed = true)) := by
  constructor
  · intro prev next curr
    rw [shouldContinue_eq]
    cases prev with
    | none => simp [sameEntryMeta]
    | some p =>
      cases next with
      | none => simp [sameEntryMeta, and_assoc]
      | some nx => simp [sameEntryMeta, Option.elim, and_assoc]
  · intro msg
    unfold isStackTraceLine
    by_cases hnil : msg.dropWhile (fun c => c == ' ' || c == '\t') = []
    · rw [hnil]
      simp [List.isPrefixOf]
    · rw [if_neg hnil]
      split <;> rename_i h1
      · simp [h1]
      · split <;> rename_i h2
        · simp [h2]
        · split <;> rename_i h3
          · simp [h3]
          · split <;> rename_i h4
            · simp [h4]
            · split <;> rename_i h5
              · simp [h5]
              · simp [h1, h2, h3, h4, h5]

/-! ## Claim C10 : filter-combination semantics -/

/-- C10: an entry passes the filters exactly when (there are no tag
filters, or its tag matches at least one tag filter) and its message
matches every message filter; with no filters at all everything passes;
and every filter produced by `parseFilters` hands `regexp.Compile` the
pattern prefixed with the case-insensitive flag `(?i)`, so matching
ignores letter case. -/
theorem claim_C10 (rmatch : List Char → List Char → Bool) (filters : List Filter)
    (tag msg : List Char) (filterStr : List Char) :
    (matchesFilters rmatch filters tag msg = true ↔
      (((∀ f ∈ filters, f.isTag = false) ∨
        ∃ f ∈ filters, f.isTag = true ∧ rmatch f.compiledSource tag = true) ∧
       (∀ f ∈ filters, f.isTag = false → rmatch f.compiledSource msg = true))) ∧
    (∀ f ∈ parseFilters filterStr, f.compiledSource = "(?i)".data ++ f.pattern) := by
  constructor
  · unfold matchesFilters
    by_cases hnil : filters = []
    · subst hnil
      simp
    · rw [if_neg hnil]
      simp only [Bool.and_eq_true, List.all_eq_true, List.mem_filter]
      constructor
      · rintro ⟨htag, hmsg⟩
        constructor
        · by_cases hte : filters.filter (fun f => f.isTag) = []
          · left
            intro f hf
            by_contra hft
            have : f ∈ filters.filter (fun f => f.isTag) :=
              List.mem_filter.mpr ⟨hf, by revert hft; cases f.isTag <;> simp⟩
            simp [hte] at this
          · right
            rw [if_neg hte] at htag
            obtain ⟨f, hf, hr⟩ := List.any_eq_true.mp htag
            exact ⟨f, (List.mem_filter.mp hf).1, by
              have := (List.mem_filter.mp hf).2
              simpa using this, hr⟩
        · intro f hf hft
          exact hmsg f ⟨hf, by simp [hft]⟩
      · rintro ⟨htag, hmsg⟩
        constructor
        · by_cases hte : filters.filter (fun f => f.isTag) = []
          · rw [if_pos hte]
          · rw [if_neg hte]
            rcases htag with hno | ⟨f, hf, hft, hr⟩
            · obtain ⟨g, hg⟩ := List.exists_mem_of_ne_nil _ hte
              have := (List.mem_filter.mp hg).2
              rw [hno g (List.mem_filter.mp hg).1] at this
              simp at this
            · exact List.any_eq_true.mpr ⟨f, List.mem_filter.mpr ⟨hf, by simp [hft]⟩, hr⟩
        · rintro f ⟨hf, hft⟩
          exact hmsg f hf (by revert hft; cases f.isTag <;> simp)
  · intro f hf
    unfold parseFilters at hf
    by_cases hs : filterStr = []
    · simp [hs] at hf
    · rw [if_neg hs, List.mem_filterMap] at hf
      obtain ⟨part, _, hpart⟩ := hf
      simp only at hpart
      split at hpart
      · exact absurd hpart (by simp)
      · rw [Option.some_inj] at hpart
        rw [← hpart]

/-- C10 witness: the combination theorem evaluated on a concrete filter
set (one tag filter, one message filter) produced by `parseFilters`. -/
theorem claim_C10_witness :
    (matchesFilters (fun pat s => pat.isSuffixOf s)
        (parseFilters "tag:Net,fail".data) "xNet".data "did fail".data = true ↔
      (((∀ f ∈ parseFilters "tag:Net,fail".data, f.isTag = false) ∨
        ∃ f ∈ parseFilters "tag:Net,fail".data, f.isTag = true ∧
          (fun pat s => pat.isSuffixOf s) f.compiledSource "xNet".data = true) ∧
       (∀ f ∈ parseFilters "tag:Net,fail".data, f.isTag = false →
         (fun pat s => pat.isSuffixOf s) f.compiledSource "did fail".data = true))) ∧
    (∀ f ∈ parseFilters "tag:Net,fail".data,
      f.compiledSource = "(?i)".data ++ f.pattern) :=
  claim_C10 (fun pat s => pat.isSuffixOf s) (parseFilters "tag:Net,fail".data)
    "xNet".data "did fail".data "tag:Net,fail".data

/-! ## Claim C8 : Stop safety -/

/-- C8 counterexample: the first `Stop()` on a started manager
succeeds, but — contrary to the claim that `Stop` may be called more
than once without panicking — a second call closes the already-closed
`stopChan` and panics (`none`). -/
theorem claim_C8_counterexample :
    (managerStop startedManager).isSome = true ∧
    (managerStop startedManager).bind managerStop = none := by decide

/-- C8 (amended: safe to call exactly once): on any manager whose stop
channels have not yet been closed, `Stop()` succeeds; it signals all
background goroutines to exit (the reader stop channel is closed and
cleared, `stopChan` and `monitorStopChan` are closed) and terminates
the external process, waiting for it to exit when one was alive; a
second `Stop()` on the resulting state panics instead of succeeding. -/
theorem claim_C8 (m : ManagerState)
    (h1 : m.stopChanClosed = false) (h2 : m.monitorStopChanClosed = false) :
    (managerStop m).isSome = true ∧
    ∀ m', managerStop m = some m' →
      m'.readStopInstalled = false ∧ m'.stopChanClosed = true ∧
      m'.monitorStopChanClosed = true ∧ m'.procAlive = false ∧
      (m.procAlive = true → m'.procWaited = true) ∧
      managerStop m' = none := by
  by_cases hp : m.procAlive <;>
    simp [managerStop, stopProcess, h1, h2, hp]

/-- C8 witness: the amended theorem evaluated on the started manager. -/
theorem claim_C8_witness :
    (managerStop startedManager).isSome = true ∧
    ({ readStopInstalled := false, stopChanClosed := true,
       monitorStopChanClosed := true, procAlive := false,
       procWaited := true } : ManagerState).readStopInstalled = false ∧
    managerStop { readStopInstalled := false, stopChanClosed := true,
                  monitorStopChanClosed := true, procAlive := false,
                  procWaited := true } = none := by
  have h := claim_C8 startedManager rfl rfl
  have h2 := h.2 { readStopInstalled := false, stopChanClosed := true,
                   monitorStopChanClosed := true, procAlive := false,
                   procWaited := true } (by decide)
  exact ⟨h.1, h2.1, h2.2.2.2.2.2⟩

/-! ## Claim C9 : reconnection status sequence -/

/-- C9: when the monitored app dies and reappears under a new PID, the
manager's status emissions are `running` (from `Start`), then
`stopped`, then `reconnecting` (sent as the waiting phase begins), and
`running` again only if the restart succeeded; if the restart fails the
monitor emits `error` instead and terminates (any further simulated
outcomes are never reached). -/
theorem claim_C9 :
    startEmits true ++ monitorEmits [.reappeared true] =
      ["running", "stopped", "reconnecting", "running"] ∧
    startEmits true ++ monitorEmits [.reappeared false] =
      ["running", "stopped", "reconnecting", "error"] ∧
    (∀ rest : List CycleOutcome,
      monitorEmits (.reappeared false :: rest) = ["stopped", "reconnecting", "error"]) ∧
    (∀ rest : List CycleOutcome,
      monitorEmits (.reappeared true :: rest) =
        "stopped" :: "reconnecting" :: "running" :: monitorEmits rest) :=
  ⟨rfl, rfl, fun _ => rfl, fun _ => rfl⟩

/-! ## Selection lemmas -/

section SelectionLemmas

variable {α : Type} [DecidableEq α]

theorem lastMatch_eq_none {p : α → Bool} {l : List α}
    (h : ∀ x ∈ l, p x = false) : lastMatch p l = none := by
  induction l with
  | nil => rfl
  | cons x xs ih =>
    rw [lastMatch, ih fun y hy => h y (by simp [hy])]
    simp [h x (by simp)]

theorem lastMatch_eq_some {p : α → Bool} {l : List α} {k : Nat}
    (hk : k < l.length) (hpk : p (l.get ⟨k, hk⟩) = true)
    (hafter : ∀ j, (hj : j < l.length) → k < j → p (l.get ⟨j, hj⟩) = false) :
    lastMatch p l = some k := by
  induction l generalizing k with
  | nil => simp at hk
  | cons x xs ih =>
    cases k with
    | zero =>
      have hnone : lastMatch p xs = none := by
        apply lastMatch_eq_none
        intro y hy
        obtain ⟨⟨j, hj⟩, rfl⟩ := List.mem_iff_get.mp hy
        exact hafter (j + 1) (by simpa using hj) (Nat.succ_pos j)
      rw [lastMatch, hnone]
      simpa using hpk
    | succ k' =>
      have hxs : lastMatch p xs = some k' := by
        apply ih (by simp only [List.length_cons] at hk; omega)
        · simpa using hpk
        · intro j hj hgt
          have := hafter (j + 1) (by simp only [List.length_cons]; omega) (by omega)
          simpa using this
      rw [lastMatch, hxs]

theorem firstMatch_eq_some {p : α → Bool} {l : List α} {k : Nat}
    (hk : k < l.length) (hpk : p (l.get ⟨k, hk⟩) = true)
    (hbefore : ∀ j, (hj : j < l.length) → j < k → p (l.get ⟨j, hj⟩) = false) :
    firstMatch p l = some k := by
  induction l generalizing k with
  | nil => simp at hk
  | cons x xs ih =>
    cases k with
    | zero =>
      rw [firstMatch, if_pos (by simpa using hpk)]
    | succ k' =>
      have hx : ¬ p x = true := by
        have := hbefore 0 (by simp) (Nat.succ_pos k')
        simpa using this
      rw [firstMatch, if_neg hx]
      have hxs : firstMatch p xs = some k' := by
        apply ih (by simp only [List.length_cons] at hk; omega)
        · simpa using hpk
        · intro j hj hlt
          have := hbefore (j + 1) (by simp only [List.length_cons]; omega) (by omega)
          simpa using this
      rw [hxs]
      rfl

theorem mem_ivl {visible : List α} {lo hi : Nat} {y : α} :
    y ∈ ivl visible lo hi ↔
      ∃ i, lo ≤ i ∧ i ≤ hi ∧ ∃ h : i < visible.length, visible.get ⟨i, h⟩ = y := by
  unfold ivl
  constructor
  · intro hy
    obtain ⟨⟨j, hj⟩, hget⟩ := List.mem_iff_get.mp hy
    have hj' := hj
    simp only [List.length_take, List.length_drop, lt_min_iff] at hj'
    have hlen : lo + j < visible.length := by omega
    refine ⟨lo + j, by omega, by omega, hlen, ?_⟩
    rw [← hget]
    simp only [List.get_eq_getElem, List.getElem_take, List.getElem_drop]
  · rintro ⟨i, h1, h2, h3, rfl⟩
    rw [List.mem_iff_get]
    have hlt : i - lo < ((visible.drop lo).take (hi + 1 - lo)).length := by
      simp only [List.length_take, List.length_drop, lt_min_iff]
      omega
    refine ⟨⟨i - lo, hlt⟩, ?_⟩
    simp only [List.get_eq_getElem, List.getElem_take, List.getElem_drop]
    congr 1
    omega

theorem get_mem_ivl_iff {visible : List α} {lo hi i : Nat}
    (hnd : visible.Nodup) (h : i < visible.length) :
    visible.get ⟨i, h⟩ ∈ ivl visible lo hi ↔ lo ≤ i ∧ i ≤ hi := by
  rw [mem_ivl]
  constructor
  · rintro ⟨j, hj1, hj2, hj3, hj4⟩
    have : j = i := by
      simp only [List.get_eq_getElem] at hj4
      exact hnd.getElem_inj_iff.mp hj4
    omega
  · intro ⟨h1, h2⟩
    exact ⟨i, h1, h2, h, rfl⟩

theorem lastMatch_get {visible : List α} {aPos : Nat}
    (hnd : visible.Nodup) (ha : aPos < visible.length) :
    lastMatch (fun e => e == visible.get ⟨aPos, ha⟩) visible = some aPos := by
  apply lastMatch_eq_some ha (by simp)
  intro j hj hgt
  have hne : visible.get ⟨j, hj⟩ ≠ visible.get ⟨aPos, ha⟩ := by
    simp only [List.get_eq_getElem, ne_eq]
    rw [hnd.getElem_inj_iff]
    omega
  simpa using hne

theorem firstMatch_ivl {visible : List α} {lo hi : Nat}
    (hnd : visible.Nodup) (hhi : hi < visible.length) (hlohi : lo ≤ hi) :
    firstMatch (fun e => decide (e ∈ ivl visible lo hi)) visible = some lo := by
  apply firstMatch_eq_some (by omega)
  · simp only [decide_eq_true_eq]
    exact (get_mem_ivl_iff hnd (by omega)).mpr ⟨le_refl lo, hlohi⟩
  · intro j hj hlt
    simp only [decide_eq_false_iff_not]
    rw [get_mem_ivl_iff hnd hj]
    omega

theorem lastMatch_ivl {visible : List α} {lo hi : Nat}
    (hnd : visible.Nodup) (hhi : hi < visible.length) (hlohi : lo ≤ hi) :
    lastMatch (fun e => decide (e ∈ ivl visible lo hi)) visible = some hi := by
  apply lastMatch_eq_some hhi
  · simp only [decide_eq_true_eq]
    exact (get_mem_ivl_iff hnd hhi).mpr ⟨hlohi, le_refl hi⟩
  · intro j hj hgt
    simp only [decide_eq_false_iff_not]
    rw [get_mem_ivl_iff hnd hj]
    omega

theorem mem_setRemove {sel : List α} {x y : α} :
    y ∈ setRemove sel x ↔ y ∈ sel ∧ y ≠ x := by
  unfold setRemove
  rw [List.mem_filter]
  simp

theorem mem_setInsert {sel : List α} {x y : α} :
    y ∈ setInsert sel x ↔ y = x ∨ y ∈ sel := by
  unfold setInsert
  by_cases h : x ∈ sel
  · rw [if_pos h]
    constructor
    · exact fun hy => Or.inr hy
    · rintro (rfl | hy) <;> assumption
  · rw [if_neg h]
    simp

theorem extendSelectionTo_eq {visible sel : List α} {a target : α} {ai ti : Nat}
    (h1 : lastMatch (fun e => e == a) visible = some ai)
    (h2 : lastMatch (fun e => e == target) visible = some ti) :
    extendSelectionTo visible (some a) sel target =
      (visible.drop (min ai ti)).take (max ai ti + 1 - min ai ti) := by
  simp [extendSelectionTo, h1, h2]

theorem extendSelectionDown_eq {visible sel : List α} {a : α} {ai fi li : Nat}
    (hv : visible ≠ [])
    (h1 : lastMatch (fun e => e == a) visible = some ai)
    (h2 : firstMatch (fun e => decide (e ∈ sel)) visible = some fi)
    (h3 : lastMatch (fun e => decide (e ∈ sel)) visible = some li) :
    extendSelectionDown visible (some a) sel =
      if fi < ai then setRemove sel (visible.getD fi a)
      else if li + 1 < visible.length then setInsert sel (visible.getD (li + 1) a)
      else sel := by
  simp [extendSelectionDown, hv, h1, h2, h3]

theorem extendSelectionUp_eq {visible sel : List α} {a : α} {ai fi li : Nat}
    (hv : visible ≠ [])
    (h1 : lastMatch (fun e => e == a) visible = some ai)
    (h2 : firstMatch (fun e => decide (e ∈ sel)) visible = some fi)
    (h3 : lastMatch (fun e => decide (e ∈ sel)) visible = some li) :
    extendSelectionUp visible (some a) sel =
      if ai < li then setRemove sel (visible.getD li a)
      else if 0 < fi then setInsert sel (visible.getD (fi - 1) a)
      else sel := by
  simp [extendSelectionUp, hv, h1, h2, h3]

end SelectionLemmas

/-! ## Claim C6 : extend-to-target selection -/

/-- C6: starting from any selection state whose anchor is the visible
entry at position `aPos`, after any sequence of `extendSelectionTo`
calls whose last target is the visible entry at position `tPos`, the
selected set is exactly the closed interval of the visible ordering
between the anchor position and the last target position, inclusive,
in either direction — independent of the initial selection and of all
earlier targets (the selection is recomputed, not accumulated). -/
theorem claim_C6 {α : Type} [DecidableEq α] (visible : List α) (ts : List α)
    (sel₀ : List α) (aPos tPos : Nat)
    (hnd : visible.Nodup) (ha : aPos < visible.length) (ht : tPos < visible.length) :
    ∀ y,
      y ∈ (ts ++ [visible.get ⟨tPos, ht⟩]).foldl
            (extendSelectionTo visible (some (visible.get ⟨aPos, ha⟩))) sel₀ ↔
      ∃ i, min aPos tPos ≤ i ∧ i ≤ max aPos tPos ∧
        ∃ h : i < visible.length, visible.get ⟨i, h⟩ = y := by
  intro y
  rw [List.foldl_append]
  have hstep : ∀ s : List α,
      extendSelectionTo visible (some (visible.get ⟨aPos, ha⟩)) s
        (visible.get ⟨tPos, ht⟩) =
      ivl visible (min aPos tPos) (max aPos tPos) := by
    intro s
    rw [extendSelectionTo_eq (lastMatch_get hnd ha) (lastMatch_get hnd ht)]
    rfl
  rw [List.foldl_cons, List.foldl_nil, hstep]
  rw [mem_ivl]

/-- C6 witness: the interval theorem evaluated on `visible = [10, 20,
30, 40, 50]` with anchor `20`, a stale first target `50`, and final
target `40`: the selection is exactly `{20, 30, 40}`. -/
theorem claim_C6_witness :
    (30 ∈ ([50, 40] : List Nat).foldl
        (extendSelectionTo [10, 20, 30, 40, 50] (some 20)) [99] ↔
      ∃ i, 1 ≤ i ∧ i ≤ 3 ∧ ∃ h : i < 5, [10, 20, 30, 40, 50].get ⟨i, h⟩ = 30) ∧
    (10 ∈ ([50, 40] : List Nat).foldl
        (extendSelectionTo [10, 20, 30, 40, 50] (some 20)) [99] ↔
      ∃ i, 1 ≤ i ∧ i ≤ 3 ∧ ∃ h : i < 5, [10, 20, 30, 40, 50].get ⟨i, h⟩ = 10) := by
  have h30 := claim_C6 [10, 20, 30, 40, 50] [50] [99] 1 3 (by decide) (by decide) (by decide) 30
  have h10 := claim_C6 [10, 20, 30, 40, 50] [50] [99] 1 3 (by decide) (by decide) (by decide) 10
  exact ⟨h30, h10⟩

/-! ## Claim C7 : single-step extension -/

/-- C7: on a well-formed selection state — the selection is the closed
interval `[lo, hi]` of the visible ordering, with the anchor at one of
its two ends — `extendSelectionDown`/`extendSelectionUp` change the
selection by exactly one visible entry relative to the anchor: when
the selection extends to the side of the anchor opposite the requested
direction, the entry at that opposite end is removed; otherwise the
next visible entry in the requested direction is added, with a no-op
at the boundary of the visible ordering.  The anchor remains at an end
of the resulting interval, so the selection never contains entries
strictly on both sides of the anchor. -/
theorem claim_C7 {α : Type} [DecidableEq α] (visible : List α) (lo hi aPos : Nat)
    (hnd : visible.Nodup) (hhi : hi < visible.length)
    (hlo : lo ≤ aPos) (hahi : aPos ≤ hi) (hend : aPos = lo ∨ aPos = hi) :
    (let lo' := if lo < aPos then lo + 1 else lo
     let hi' := if lo < aPos then hi else if hi + 1 < visible.length then hi + 1 else hi
     (∀ y, y ∈ extendSelectionDown visible
         (some (visible.get ⟨aPos, lt_of_le_of_lt hahi hhi⟩)) (ivl visible lo hi) ↔
       y ∈ ivl visible lo' hi') ∧
     (aPos = lo' ∨ aPos = hi')) ∧
    (let hi2 := if aPos < hi then hi - 1 else hi
     let lo2 := if aPos < hi then lo else if 0 < lo then lo - 1 else lo
     (∀ y, y ∈ extendSelectionUp visible
         (some (visible.get ⟨aPos, lt_of_le_of_lt hahi hhi⟩)) (ivl visible lo hi) ↔
       y ∈ ivl visible lo2 hi2) ∧
     (aPos = lo2 ∨ aPos = hi2)) := by
  have haPos : aPos < visible.length := lt_of_le_of_lt hahi hhi
  have hvne : visible ≠ [] := by
    intro hc
    rw [hc] at hhi
    simp at hhi
  have hlohi : lo ≤ hi := le_trans hlo hahi
  refine ⟨⟨?_, ?_⟩, ?_, ?_⟩
  · intro y
    rw [extendSelectionDown_eq hvne (lastMatch_get hnd haPos)
      (firstMatch_ivl hnd hhi hlohi) (lastMatch_ivl hnd hhi hlohi)]
    by_cases hshrink : lo < aPos
    · simp only [if_pos hshrink]
      rw [List.getD_eq_getElem _ _ (by omega : lo < visible.length), mem_setRemove]
      constructor
      · rintro ⟨hy, hne⟩
        obtain ⟨i, h1, h2, h3, rfl⟩ := mem_ivl.mp hy
        refine mem_ivl.mpr ⟨i, ?_, h2, h3, rfl⟩
        rcases Nat.lt_or_ge lo i with hlt | hge
        · omega
        · exfalso
          have : i = lo := by omega
          subst this
          exact hne (by simp [List.get_eq_getElem])
      · intro hy
        obtain ⟨i, h1, h2, h3, rfl⟩ := mem_ivl.mp hy
        refine ⟨mem_ivl.mpr ⟨i, by omega, h2, h3, rfl⟩, ?_⟩
        simp only [List.get_eq_getElem, ne_eq]
        rw [hnd.getElem_inj_iff]
        omega
    · simp only [if_neg hshrink]
      by_cases hgrow : hi + 1 < visible.length
      · simp only [if_pos hgrow]
        rw [List.getD_eq_getElem _ _ hgrow, mem_setInsert]
        constructor
        · rintro (rfl | hy)
          · exact mem_ivl.mpr ⟨hi + 1, by omega, by omega, hgrow,
              by simp [List.get_eq_getElem]⟩
          · obtain ⟨i, h1, h2, h3, rfl⟩ := mem_ivl.mp hy
            exact mem_ivl.mpr ⟨i, h1, by omega, h3, rfl⟩
        · intro hy
          obtain ⟨i, h1, h2, h3, rfl⟩ := mem_ivl.mp hy
          by_cases hieq : i = hi + 1
          · subst hieq
            left
            simp [List.get_eq_getElem]
          · right
            exact mem_ivl.mpr ⟨i, h1, by omega, h3, rfl⟩
      · simp only [if_neg hgrow]
  · by_cases hshrink : lo < aPos
    · have haeq : aPos = hi := by rcases hend with h | h <;> omega
      have hlt : lo < hi := by omega
      simp [hlt, haeq]
    · have haeq : aPos = lo := by omega
      by_cases hgrow : hi + 1 < visible.length <;> simp [hshrink, hgrow, haeq]
  · intro y
    rw [extendSelectionUp_eq hvne (lastMatch_get hnd haPos)
      (firstMatch_ivl hnd hhi hlohi) (lastMatch_ivl hnd hhi hlohi)]
    by_cases hshrink : aPos < hi
    · simp only [if_pos hshrink]
      rw [List.getD_eq_getElem _ _ hhi, mem_setRemove]
      constructor
      · rintro ⟨hy, hne⟩
        obtain ⟨i, h1, h2, h3, rfl⟩ := mem_ivl.mp hy
        refine mem_ivl.mpr ⟨i, h1, ?_, h3, rfl⟩
        rcases Nat.lt_or_ge i hi with hlt | hge
        · omega
        · exfalso
          have : i = hi := by omega
          subst this
          exact hne (by simp [List.get_eq_getElem])
      · intro hy
        obtain ⟨i, h1, h2, h3, rfl⟩ := mem_ivl.mp hy
        refine ⟨mem_ivl.mpr ⟨i, h1, by omega, h3, rfl⟩, ?_⟩
        simp only [List.get_eq_getElem, ne_eq]
        rw [hnd.getElem_inj_iff]
        omega
    · simp only [if_neg hshrink]
      by_cases hgrow : 0 < lo
      · simp only [if_pos hgrow]
        rw [List.getD_eq_getElem _ _ (by omega : lo - 1 < visible.length), mem_setInsert]
        constructor
        · rintro (rfl | hy)
          · exact mem_ivl.mpr ⟨lo - 1, by omega, by omega, by omega,
              by simp [List.get_eq_getElem]⟩
          · obtain ⟨i, h1, h2, h3, rfl⟩ := mem_ivl.mp hy
            exact mem_ivl.mpr ⟨i, by omega, h2, h3, rfl⟩
        · intro hy
          obtain ⟨i, h1, h2, h3, rfl⟩ := mem_ivl.mp hy
          by_cases hieq : i = lo - 1
          · subst hieq
            left
            simp [List.get_eq_getElem]
          · right
            exact mem_ivl.mpr ⟨i, by omega, h2, h3, rfl⟩
      · simp only [if_neg hgrow]
  · by_cases hshrink : aPos < hi
    · have haeq : aPos = lo := by rcases hend with h | h <;> omega
      have hlt : lo < hi := by omega
      simp [hlt, haeq]
    · have haeq : aPos = hi := by omega
      by_cases hgrow : 0 < lo <;> simp [hshrink, hgrow, haeq]

/-- C7 witness: the single-step theorem evaluated on
`visible = [10, 20, 30, 40]`, anchor `30` at position 2, selection
`[20, 30]` (`ivl` positions 1-2). -/
theorem claim_C7_witness :
    (20 ∈ extendSelectionDown [10, 20, 30, 40] (some 30) (ivl [10, 20, 30, 40] 1 2) ↔
      20 ∈ ivl [10, 20, 30, 40] 2 2) ∧
    (30 ∈ extendSelectionUp [10, 20, 30, 40] (some 30) (ivl [10, 20, 30, 40] 1 2) ↔
      30 ∈ ivl [10, 20, 30, 40] 0 2) := by
  have h := claim_C7 [10, 20, 30, 40] 1 2 2 (by decide) (by decide) (by decide)
    (by decide) (Or.inr rfl)
  exact ⟨h.1.1 20, h.2.1 30⟩

/-! ## Render-cache lemmas -/

theorem pairNext_nil_iff {l : List Entry} {after : Option Entry} :
    pairNext l after = [] ↔ l = [] := by
  cases l with
  | nil => simp [pairNext]
  | cons x xs => cases xs <;> simp [pairNext]

theorem pairNext_snoc (l : List Entry) (L : Entry) (after : Option Entry) :
    pairNext (l ++ [L]) after = pairNext l (some L) ++ [(L, after)] := by
  induction l with
  | nil => simp [pairNext]
  | cons x xs ih =>
    cases xs with
    | nil => simp [pairNext]
    | cons y ys =>
      show (x, some y) :: pairNext ((y :: ys) ++ [L]) after =
        ((x, some y) :: pairNext (y :: ys) (some L)) ++ [(L, after)]
      rw [ih]
      rfl

theorem pairNext_append_cons (l₁ : List Entry) (p0 : Entry) (l₂ : List Entry)
    (after : Option Entry) :
    pairNext (l₁ ++ p0 :: l₂) after =
      pairNext l₁ (some p0) ++ pairNext (p0 :: l₂) after := by
  induction l₁ with
  | nil => simp [pairNext]
  | cons x xs ih =>
    cases xs with
    | nil => simp [pairNext]
    | cons y ys =>
      show (x, some y) :: pairNext ((y :: ys) ++ p0 :: l₂) after =
        ((x, some y) :: pairNext (y :: ys) (some p0)) ++ pairNext (p0 :: l₂) after
      rw [ih]
      rfl

theorem renderStep_frame (fmt : Entry → Bool → Bool → List (List Char))
    (c : Cache) (p : Entry × Option Entry) (n : Nat) (x : List Char) :
    renderStep fmt { c with renderedUpTo := n, viewportContent := x } p =
      { renderStep fmt c p with renderedUpTo := n, viewportContent := x } := rfl

theorem foldRender_frame (fmt : Entry → Bool → Bool → List (List Char))
    (ps : List (Entry × Option Entry)) (c : Cache) (n : Nat) (x : List Char) :
    foldRender fmt { c with renderedUpTo := n, viewportContent := x } ps =
      { foldRender fmt c ps with renderedUpTo := n, viewportContent := x } := by
  induction ps generalizing c with
  | nil => rfl
  | cons p ps ih =>
    unfold foldRender at ih ⊢
    rw [List.foldl_cons, List.foldl_cons, renderStep_frame, ih]

theorem foldRender_lines_prefix (fmt : Entry → Bool → Bool → List (List Char))
    (ps : List (Entry × Option Entry)) (c : Cache) :
    ∃ Δ, (foldRender fmt c ps).renderedLines = c.renderedLines ++ Δ := by
  induction ps generalizing c with
  | nil => exact ⟨[], by simp [foldRender]⟩
  | cons p ps ih =>
    unfold foldRender at ih ⊢
    rw [List.foldl_cons]
    obtain ⟨Δ, hΔ⟩ := ih (renderStep fmt c p)
    refine ⟨(renderStep fmt c p).renderedLines.drop c.renderedLines.length ++ Δ, ?_⟩
    rw [hΔ]
    show (renderStep fmt c p).renderedLines ++ Δ = _
    simp only [renderStep, List.drop_left, List.append_assoc]

theorem foldRender_lines_ne_nil (fmt : Entry → Bool → Bool → List (List Char))
    (hfmt : ∀ e st cont, [] ∉ fmt e st cont)
    (ps : List (Entry × Option Entry)) (c : Cache)
    (hc : ∀ l ∈ c.renderedLines, l ≠ []) :
    ∀ l ∈ (foldRender fmt c ps).renderedLines, l ≠ [] := by
  induction ps generalizing c with
  | nil => exact hc
  | cons p ps ih =>
    unfold foldRender at ih ⊢
    rw [List.foldl_cons]
    apply ih
    intro l hl
    simp only [renderStep, List.mem_append] at hl
    rcases hl with hl | hl
    · exact hc l hl
    · intro hnil
      subst hnil
      exact hfmt p.1 _ _ hl

theorem joinLines_append {a b : List (List Char)} (ha : a ≠ []) (hb : b ≠ []) :
    joinLines (a ++ b) = joinLines a ++ '\n' :: joinLines b := by
  induction a with
  | nil => exact absurd rfl ha
  | cons x xs ih =>
    cases xs with
    | nil =>
      cases b with
      | nil => exact absurd rfl hb
      | cons y ys => simp [joinLines]
    | cons z zs =>
      have ih2 := ih (by simp)
      show x ++ '
' :: joinLines ((z :: zs) ++ b) = (x ++ '
' :: joinLines (z :: zs)) ++ '
' :: joinLines b
      rw [ih2]
      simp

theorem joinLines_ne_nil {a : List (List Char)} (hne : a ≠ [])
    (h : ∀ l ∈ a, l ≠ []) : joinLines a ≠ [] := by
  cases a with
  | nil => exact absurd rfl hne
  | cons x xs =>
    cases xs with
    | nil =>
      have := h x (by simp)
      simpa [joinLines] using this
    | cons y ys =>
      have := h x (by simp)
      simp only [joinLines]
      intro hc
      exact this (List.append_eq_nil.mp hc).1

theorem joinLines_eq_nil_iff {a : List (List Char)} (h : ∀ l ∈ a, l ≠ []) :
    joinLines a = [] ↔ a = [] := by
  constructor
  · intro hj
    by_contra hne
    exact joinLines_ne_nil hne h hj
  · intro hj
    subst hj
    rfl

/-- Looking ahead cannot turn a continuation off: if an entry continues
with no lookahead, it continues with any lookahead. -/
theorem shouldContinue_mono {prev : Option Entry} {curr : Entry} {nx : Entry}
    (h : shouldContinue prev curr none = true) :
    shouldContinue prev curr (some nx) = true := by
  rw [shouldContinue_eq] at h ⊢
  simp only [sameEntryMeta, Bool.and_eq_true, Bool.or_eq_true] at h ⊢
  exact ⟨h.1, Or.inl (by rcases h.2 with h2 | h2; exact h2; simp [Option.elim] at h2)⟩

theorem renderStep_next_congr (fmt : Entry → Bool → Bool → List (List Char))
    (c : Cache) (e : Entry) (n₁ n₂ : Option Entry)
    (h : shouldContinue c.lastRenderedLast e n₁ = shouldContinue c.lastRenderedLast e n₂) :
    renderStep fmt c (e, n₁) = renderStep fmt c (e, n₂) := by
  simp [renderStep, h]

theorem pairNext_nil (after : Option Entry) : pairNext [] after = [] := rfl

theorem foldRender_nil (fmt : Entry → Bool → Bool → List (List Char)) (c : Cache) :
    foldRender fmt c [] = c := rfl

theorem foldRender_append (fmt : Entry → Bool → Bool → List (List Char)) (c : Cache)
    (ps qs : List (Entry × Option Entry)) :
    foldRender fmt c (ps ++ qs) = foldRender fmt (foldRender fmt c ps) qs :=
  List.foldl_append _ _ _ _

/-- Unfolding of `rebuildViewport` to its record value. -/
theorem rebuildViewport_def (fmt : Entry → Bool → Bool → List (List Char))
    (rmatch : List Char → List Char → Bool) (minLogLevel : Priority)
    (filters : List Filter) (parsedEntries : List Entry) :
    rebuildViewport fmt rmatch minLogLevel filters parsedEntries =
      { foldRender fmt emptyCache
          (pairNext (parsedEntries.filter (entryVisible rmatch minLogLevel filters)) none) with
        renderedUpTo := parsedEntries.length,
        viewportContent := joinLines (foldRender fmt emptyCache
          (pairNext (parsedEntries.filter
            (entryVisible rmatch minLogLevel filters)) none)).renderedLines } := rfl

/-- The non-fallback append path on a cache produced by a rebuild
extends the fold and keeps the joined content in sync. -/
theorem appendViewportCore_eq (fmt : Entry → Bool → Bool → List (List Char))
    (C : Cache) (hC : ∀ l ∈ C.renderedLines, l ≠ [])
    (v' : List Entry) (m N : Nat) :
    appendViewportCore fmt
        { C with
          renderedUpTo := m,
          viewportContent := joinLines C.renderedLines }
        v' N =
      { foldRender fmt C (pairNext v' none) with
        renderedUpTo := N,
        viewportContent :=
          joinLines (foldRender fmt C (pairNext v' none)).renderedLines } := by
  unfold appendViewportCore
  rw [foldRender_frame]
  obtain ⟨Δ, hΔ⟩ := foldRender_lines_prefix fmt (pairNext v' none) C
  have hdrop : (foldRender fmt C (pairNext v' none)).renderedLines.drop
      C.renderedLines.length = Δ := by
    rw [hΔ]
    exact List.drop_left _ _
  show ({ foldRender fmt C (pairNext v' none) with
      renderedUpTo := N,
      viewportContent :=
        if (foldRender fmt C (pairNext v' none)).renderedLines.drop
            C.renderedLines.length = [] then joinLines C.renderedLines
        else if joinLines C.renderedLines = [] then
          joinLines ((foldRender fmt C (pairNext v' none)).renderedLines.drop
            C.renderedLines.length)
        else joinLines C.renderedLines ++
          '\n' :: joinLines ((foldRender fmt C (pairNext v' none)).renderedLines.drop
            C.renderedLines.length) } : Cache) = _
  rw [hdrop, hΔ]
  by_cases hnil : Δ = []
  · rw [if_pos hnil, hnil, List.append_nil]
  · rw [if_neg hnil]
    by_cases hab : joinLines C.renderedLines = []
    · rw [if_pos hab]
      rw [(joinLines_eq_nil_iff hC).mp hab]
      rfl
    · rw [if_neg hab]
      rw [joinLines_append (fun hc => hab (by rw [hc]; rfl)) hnil]

/-! ## Claim C4 : incremental append equals full rebuild -/

/-- C4: rendering a first batch with a full rebuild and then appending
a second batch through the incremental path yields exactly the same
cache — rendered lines, line-to-entry map, entry line ranges, tracking
state and joined viewport content — as one full rebuild over the
concatenation of the two batches (first conjunct); and whenever the
first newly visible entry would be a continuation of the last
previously rendered entry, the incremental path falls back to a full
rebuild (second conjunct).  Formatting is abstracted by `fmt`, which is
assumed never to produce an empty rendered line (true of the source's
formatters, whose lines always carry a nonempty column prefix). -/
theorem claim_C4 (fmt : Entry → Bool → Bool → List (List Char))
    (rmatch : List Char → List Char → Bool) (minLogLevel : Priority)
    (filters : List Filter)
    (hfmt : ∀ e st cont, [] ∉ fmt e st cont) (es₁ es₂ : List Entry) :
    appendViewport fmt rmatch minLogLevel filters
        (rebuildViewport fmt rmatch minLogLevel filters es₁) (es₁ ++ es₂) =
      rebuildViewport fmt rmatch minLogLevel filters (es₁ ++ es₂) ∧
    (∀ (c : Cache) (entries : List Entry) (lastE p0 : Entry) (pend : List Entry),
      (entries.drop c.renderedUpTo).filter (entryVisible rmatch minLogLevel filters) =
        p0 :: pend →
      c.lastRenderedLast = some lastE →
      shouldContinue c.lastRenderedPrev lastE (some p0) = true →
      appendViewport fmt rmatch minLogLevel filters c entries =
        rebuildViewport fmt rmatch minLogLevel filters entries) := by
  have hfallback : ∀ (c : Cache) (entries : List Entry) (lastE p0 : Entry)
      (pend : List Entry),
      (entries.drop c.renderedUpTo).filter (entryVisible rmatch minLogLevel filters) =
        p0 :: pend →
      c.lastRenderedLast = some lastE →
      shouldContinue c.lastRenderedPrev lastE (some p0) = true →
      appendViewport fmt rmatch minLogLevel filters c entries =
        rebuildViewport fmt rmatch minLogLevel filters entries := by
    intro c entries lastE p0 pend hp hl hsc
    simp only [appendViewport, hp, hl]
    rw [if_pos hsc]
  refine ⟨?_, hfallback⟩
  have hpend : ((es₁ ++ es₂).drop
      (rebuildViewport fmt rmatch minLogLevel filters es₁).renderedUpTo).filter
        (entryVisible rmatch minLogLevel filters) =
      es₂.filter (entryVisible rmatch minLogLevel filters) := by
    show ((es₁ ++ es₂).drop es₁.length).filter _ = _
    rw [List.drop_left]
  have hlines₁ : ∀ l ∈ (foldRender fmt emptyCache
      (pairNext (es₁.filter (entryVisible rmatch minLogLevel filters)) none)).renderedLines,
      l ≠ [] :=
    foldRender_lines_ne_nil fmt hfmt _ emptyCache (by intro l hl; simp [emptyCache] at hl)
  cases hsplit2 : es₂.filter (entryVisible rmatch minLogLevel filters) with
  | nil =>
    have harm : appendViewport fmt rmatch minLogLevel filters
        (rebuildViewport fmt rmatch minLogLevel filters es₁) (es₁ ++ es₂) =
        appendViewportCore fmt (rebuildViewport fmt rmatch minLogLevel filters es₁) []
          (es₁ ++ es₂).length := by
      simp only [appendViewport, hpend, hsplit2]
    rw [harm, rebuildViewport_def, appendViewportCore_eq fmt _ hlines₁,
      rebuildViewport_def, List.filter_append, hsplit2, List.append_nil,
      pairNext_nil, foldRender_nil]
  | cons p0 pend =>
    rcases List.eq_nil_or_concat (es₁.filter (entryVisible rmatch minLogLevel filters))
      with hsplit1 | ⟨w, L, hsplit1⟩
    · -- no previously rendered entry: the append is a fold from the empty cache
      have hlast : (rebuildViewport fmt rmatch minLogLevel filters
          es₁).lastRenderedLast = none := by
        show (foldRender fmt emptyCache (pairNext (es₁.filter
          (entryVisible rmatch minLogLevel filters)) none)).lastRenderedLast = none
        rw [hsplit1]
        rfl
      have harm : appendViewport fmt rmatch minLogLevel filters
          (rebuildViewport fmt rmatch minLogLevel filters es₁) (es₁ ++ es₂) =
          appendViewportCore fmt (rebuildViewport fmt rmatch minLogLevel filters es₁)
            (p0 :: pend) (es₁ ++ es₂).length := by
        simp only [appendViewport, hpend, hsplit2, hlast]
      rw [harm, rebuildViewport_def, appendViewportCore_eq fmt _ hlines₁,
        rebuildViewport_def, List.filter_append, hsplit2, hsplit1,
        List.nil_append, pairNext_nil, foldRender_nil]
    · -- a last rendered entry L exists
      rw [List.concat_eq_append] at hsplit1
      have hfold1 : foldRender fmt emptyCache
          (pairNext (es₁.filter (entryVisible rmatch minLogLevel filters)) none) =
          renderStep fmt (foldRender fmt emptyCache (pairNext w (some L)))
            (L, none) := by
        rw [hsplit1, pairNext_snoc, foldRender_append]
        rfl
      by_cases hfb : shouldContinue
          (foldRender fmt emptyCache (pairNext w (some L))).lastRenderedLast
          L (some p0) = true
      · -- continuation boundary: the incremental path rebuilds
        apply hfallback _ _ L p0 pend
        · exact hpend.trans hsplit2
        · show (foldRender fmt emptyCache (pairNext (es₁.filter
            (entryVisible rmatch minLogLevel filters)) none)).lastRenderedLast = some L
          rw [hfold1]
          rfl
        · show shouldContinue (foldRender fmt emptyCache (pairNext (es₁.filter
            (entryVisible rmatch minLogLevel filters)) none)).lastRenderedPrev
            L (some p0) = true
          rw [hfold1]
          exact hfb
      · -- no continuation at the boundary: the incremental fold agrees
        have hnone : shouldContinue
            (foldRender fmt emptyCache (pairNext w (some L))).lastRenderedLast
            L none = false := by
          by_contra hc
          have hceq : shouldContinue (foldRender fmt emptyCache
              (pairNext w (some L))).lastRenderedLast L none = true := by
            revert hc
            cases shouldContinue (foldRender fmt emptyCache
              (pairNext w (some L))).lastRenderedLast L none <;> simp
          exact hfb (shouldContinue_mono hceq)
        have hsome : shouldContinue
            (foldRender fmt emptyCache (pairNext w (some L))).lastRenderedLast
            L (some p0) = false := by
          revert hfb
          cases shouldContinue (foldRender fmt emptyCache
            (pairNext w (some L))).lastRenderedLast L (some p0) <;> simp
        have hkey : foldRender fmt emptyCache
            (pairNext (es₁.filter (entryVisible rmatch minLogLevel filters)) none) =
            foldRender fmt emptyCache
              (pairNext (es₁.filter (entryVisible rmatch minLogLevel filters))
                (some p0)) := by
          rw [hfold1, hsplit1, pairNext_snoc, foldRender_append]
          show renderStep fmt (List.foldl (renderStep fmt) emptyCache
            (pairNext w (some L))) (L, none) = _
          exact renderStep_next_congr fmt _ L none (some p0) (hnone.trans hsome.symm)
        have hlast : (rebuildViewport fmt rmatch minLogLevel filters
            es₁).lastRenderedLast = some L := by
          show (foldRender fmt emptyCache (pairNext (es₁.filter
            (entryVisible rmatch minLogLevel filters)) none)).lastRenderedLast = some L
          rw [hfold1]
          rfl
        have hprev : (rebuildViewport fmt rmatch minLogLevel filters
            es₁).lastRenderedPrev =
            (foldRender fmt emptyCache (pairNext w (some L))).lastRenderedLast := by
          show (foldRender fmt emptyCache (pairNext (es₁.filter
            (entryVisible rmatch minLogLevel filters)) none)).lastRenderedPrev = _
          rw [hfold1]
          rfl
        have harm : appendViewport fmt rmatch minLogLevel filters
            (rebuildViewport fmt rmatch minLogLevel filters es₁) (es₁ ++ es₂) =
            appendViewportCore fmt (rebuildViewport fmt rmatch minLogLevel filters es₁)
              (p0 :: pend) (es₁ ++ es₂).length := by
          simp only [appendViewport, hpend, hsplit2, hlast]
          rw [hprev, if_neg (by simp [hsome])]
        rw [harm, rebuildViewport_def, appendViewportCore_eq fmt _ hlines₁,
          rebuildViewport_def, List.filter_append, hsplit2, pairNext_append_cons,
          foldRender_append, ← hkey]

/-- C4 witness: the equivalence theorem evaluated on a concrete
formatter and two one-entry batches whose boundary is a continuation
(the appended entry is a stack-trace follow-up of the previously
rendered entry), so the incremental path exercises the rebuild
fallback. -/
theorem claim_C4_witness :
    appendViewport
        (fun e st cont =>
          [(if st then 'T' else 't') :: (if cont then 'C' else 'c') :: e.Message])
        (fun _ _ => true) .Verbose []
        (rebuildViewport
          (fun e st cont =>
            [(if st then 'T' else 't') :: (if cont then 'C' else 'c') :: e.Message])
          (fun _ _ => true) .Verbose []
          [⟨"t1".data, "1".data, "2".data, .Info, "A".data, "hello".data, []⟩])
        ([⟨"t1".data, "1".data, "2".data, .Info, "A".data, "hello".data, []⟩] ++
          [⟨"t1".data, "1".data, "2".data, .Info, "A".data, "at Foo.bar".data, []⟩]) =
      rebuildViewport
        (fun e st cont =>
          [(if st then 'T' else 't') :: (if cont then 'C' else 'c') :: e.Message])
        (fun _ _ => true) .Verbose []
        ([⟨"t1".data, "1".data, "2".data, .Info, "A".data, "hello".data, []⟩] ++
          [⟨"t1".data, "1".data, "2".data, .Info, "A".data, "at Foo.bar".data, []⟩]) :=
  (claim_C4
    (fun e st cont =>
      [(if st then 'T' else 't') :: (if cont then 'C' else 'c') :: e.Message])
    (fun _ _ => true) .Verbose [] (fun e st cont => by simp)
    [⟨"t1".data, "1".data, "2".data, .Info, "A".data, "hello".data, []⟩]
    [⟨"t1".data, "1".data, "2".data, .Info, "A".data, "at Foo.bar".data, []⟩]).1

end Logdog
